import Mathlib

/-!
# The chunk cache of go-ebiten-chunks (src/main.go)

A shallow embedding of the cache in `src/main.go`: the map `World.Chunks`, the
recency list `World.cacheQueue` (a `container/list` of coordinates, front = oldest)
and the channel `World.genQueue`, together with `GetChunk`, `moveToBack`,
`evictOldChunks`, `GenerateChunk` and the body of `chunkWorker`.

Conventions of the embedding.
* A Go `[2]int` key is a pair of integers.
* A `*Chunk` is an `Option Chunk`; `none` is the nil pointer.  Only non-nil chunks
  are ever stored in the map, so the map holds `Chunk` values.
* The map is a key/value list; it is only observed through `mapGet` and `mapKeys`.
* `container/list` is a Lean list whose head is `Front()`.
* `genQueue` is the buffer of the channel: the keys sent and not yet received, at most
  `GenQueueCap = 100` of them.  A send with a full buffer waits; a call of `GetChunk`
  that reaches such a send does not return (`none`) until a worker has received a key.
* Every section of code run under `w.mu` is one atomic step.
* The constant `MaxChunks` is passed to the operations as the argument `maxChunks`,
  so that the scenarios with another capacity can be run on the same code.
-/

namespace ChunkCache

/-! ## Constants -/

/-- Constant `TileSize` of main.go. -/
def TileSize : Nat := 16

/-- Constant `ChunkSize` of main.go. -/
def ChunkSize : Nat := 32

/-- Constant `ChunkPixel = ChunkSize * TileSize` of main.go. -/
def ChunkPixel : Nat := ChunkSize * TileSize

/-- Constant `ChunkWorkers` of main.go: the number of worker goroutines. -/
def ChunkWorkers : Nat := 4

/-- Constant `MaxChunks` of main.go. -/
def MaxChunks : Nat := 50

/-- The buffer size of the channel, `make(chan [2]int, 100)` in `NewWorld`. -/
def GenQueueCap : Nat := 100

/-! ## Data model -/

/-- A map key `[2]int{cx, cy}`. -/
abbrev Coord := Int × Int

/-- A `color.RGBA` value; every channel is a `uint8`. -/
structure RGBA where
  R : Nat
  G : Nat
  B : Nat
  A : Nat
deriving DecidableEq, Repr

/-- An `*ebiten.Image`, seen through its size and its pixel buffer (row after row). -/
structure EbitenImage where
  width : Nat
  height : Nat
  pix : Array RGBA
deriving DecidableEq

/-- The call `ebiten.NewImage(w, h)`: an image whose pixels are all zero. -/
def NewImage (w h : Nat) : EbitenImage :=
  { width := w, height := h, pix := Array.mkArray (w * h) ⟨0, 0, 0, 0⟩ }

/-- The call `img.Set(x, y, c)`: writes one pixel, ignoring positions outside the image. -/
def EbitenImage.Set (img : EbitenImage) (x y : Nat) (c : RGBA) : EbitenImage :=
  if x < img.width ∧ y < img.height then
    { img with pix := img.pix.setD (y * img.width + x) c }
  else img

/-- The call `img.At(x, y)`: the pixel, zero outside the image. -/
def EbitenImage.At (img : EbitenImage) (x y : Nat) : RGBA :=
  if x < img.width ∧ y < img.height then img.pix.getD (y * img.width + x) ⟨0, 0, 0, 0⟩
  else ⟨0, 0, 0, 0⟩

/-- The struct `Chunk` of main.go. -/
structure Chunk where
  Image : EbitenImage
  Ready : Bool
deriving DecidableEq

/-- The Go map `map[[2]int]*Chunk`, as a key/value list without repeated keys. -/
abbrev ChunkMap := List (Coord × Chunk)

/-- The map index expression `m[k]`: the stored chunk, or `none` when `k` is no key. -/
def mapGet : ChunkMap → Coord → Option Chunk
  | [], _ => none
  | (k0, v) :: rest, k => if k0 = k then some v else mapGet rest k

/-- The builtin `delete(m, k)`. -/
def mapDelete (m : ChunkMap) (k : Coord) : ChunkMap :=
  m.filter (fun p => decide (p.1 ≠ k))

/-- The assignment `m[k] = v`. -/
def mapSet (m : ChunkMap) (k : Coord) (v : Chunk) : ChunkMap :=
  (k, v) :: mapDelete m k

/-- The keys of the map. -/
def mapKeys (m : ChunkMap) : List Coord :=
  m.map Prod.fst

/-- The struct `World` of main.go (the mutex `mu` is the atomicity of the steps). -/
structure World where
  Chunks : ChunkMap
  cacheQueue : List Coord
  genQueue : List Coord

/-- The world built by `NewWorld`: empty map, empty list, empty channel. -/
def NewWorld : World :=
  { Chunks := [], cacheQueue := [], genQueue := [] }

/-! ## GenerateChunk -/

/-- Wrap-around of a Go `int` (64 bits). -/
def wrapInt (z : Int) : Int :=
  (z + 2 ^ 63) % 2 ^ 64 - 2 ^ 63

/-- The conversion `uint8(z)`. -/
def uint8 (z : Int) : Nat :=
  (z % 256).toNat

/-- Addition of two `uint8` values. -/
def addU8 (a b : Nat) : Nat :=
  (a + b) % 256

/-- The function `GenerateChunk` of main.go: four nested loops painting the tiles. -/
def GenerateChunk (cx cy : Int) : Chunk :=
  let img := NewImage ChunkPixel ChunkPixel
  let baseColor : RGBA :=
    ⟨uint8 (Int.tmod (wrapInt (cx * 30)) 255), uint8 (Int.tmod (wrapInt (cy * 50)) 255), 100, 255⟩
  let img := (List.range ChunkSize).foldl (fun img x =>
    (List.range ChunkSize).foldl (fun img y =>
      let tileX := x * TileSize
      let tileY := y * TileSize
      let tileColor : RGBA :=
        ⟨addU8 baseColor.R (uint8 (x * 5 % 50)), addU8 baseColor.G (uint8 (y * 5 % 50)),
          baseColor.B, 255⟩
      (List.range TileSize).foldl (fun img dx =>
        (List.range TileSize).foldl (fun img dy =>
          img.Set (tileX + dx) (tileY + dy) tileColor) img) img) img) img
  { Image := img, Ready := true }

/-- The placeholder `&Chunk{Image: ebiten.NewImage(ChunkPixel, ChunkPixel)}` of `GetChunk`. -/
def placeholder : Chunk :=
  { Image := NewImage ChunkPixel ChunkPixel, Ready := false }

/-! ## evictOldChunks -/

/-- The loop of `evictOldChunks`, run for at most `fuel` iterations.  The third
argument collects the keys handed to `delete`, in order.  `none` means the loop
is still running when the fuel is spent. -/
def evictLoop (maxChunks : Nat) : Nat → World → List Coord → Option (World × List Coord)
  | 0, w, log => if w.cacheQueue.length > maxChunks then none else some (w, log)
  | fuel + 1, w, log =>
    if w.cacheQueue.length > maxChunks then
      match w.cacheQueue with
      | [] => evictLoop maxChunks fuel w log
      | key :: rest =>
        evictLoop maxChunks fuel
          { w with Chunks := mapDelete w.Chunks key, cacheQueue := rest } (log ++ [key])
    else some (w, log)

/-- The method `evictOldChunks` with the list of the keys it deleted.  The fuel
`len(cacheQueue)` is always enough (`evictLoop_enough`). -/
def evictOldChunksTrace (maxChunks : Nat) (w : World) : World × List Coord :=
  match evictLoop maxChunks w.cacheQueue.length w [] with
  | some r => r
  | none => (w, [])

/-- The method `evictOldChunks` of main.go. -/
def evictOldChunks (maxChunks : Nat) (w : World) : World :=
  (evictOldChunksTrace maxChunks w).1

/-! ## moveToBack -/

/-- The loop of `moveToBack`: `seen` are the elements already passed, the second
list is what is left from `e` on.  The first element equal to `key` is moved to
the back; if the end is reached the list is as it was. -/
def moveToBackLoop (key : Coord) : List Coord → List Coord → List Coord
  | seen, [] => seen
  | seen, e :: rest =>
    if e = key then seen ++ rest ++ [e] else moveToBackLoop key (seen ++ [e]) rest

/-- The method `moveToBack` of main.go. -/
def moveToBack (w : World) (key : Coord) : World :=
  { w with cacheQueue := moveToBackLoop key [] w.cacheQueue }

/-! ## GetChunk -/

/-- Line 121 of `GetChunk`: the placeholder is stored under the key. -/
def storePlaceholder (w : World) (key : Coord) : World :=
  { w with Chunks := mapSet w.Chunks key placeholder }

/-- The world right after lines 121-123 of a call whose send has gone through: the
placeholder is stored, the key is in the channel and at the back of the list. -/
def afterInsert (w : World) (key : Coord) : World :=
  { Chunks := mapSet w.Chunks key placeholder,
    genQueue := w.genQueue ++ [key],
    cacheQueue := w.cacheQueue ++ [key] }

/-- Lines 121-123 of `GetChunk`: store the placeholder, send the key, push it back.
The send of line 122 goes through only if the buffer holds fewer than `GenQueueCap`
keys; otherwise the call waits there, holding `w.mu` (`none`). -/
def insertPlaceholder (w : World) (key : Coord) : Option World :=
  if w.genQueue.length < GenQueueCap then some (afterInsert w key) else none

/-- The method `GetChunk` of main.go: the new world and the returned pointer, or `none`
when the call does not return because its send waits on a full channel. -/
def GetChunk (maxChunks : Nat) (w : World) (cx cy : Int) : Option (World × Option Chunk) :=
  let key : Coord := (cx, cy)
  match mapGet w.Chunks key with
  | some chunk => some (moveToBack w key, some chunk)
  | none =>
    match insertPlaceholder w key with
    | none => none
    | some w0 =>
      let w1 := evictOldChunks maxChunks w0
      some (w1, mapGet w1.Chunks key)

/-- The keys deleted by the eviction check of one `GetChunk` call (`none` when the call
does not return). -/
def GetChunkEvicted (maxChunks : Nat) (w : World) (cx cy : Int) : Option (List Coord) :=
  let key : Coord := (cx, cy)
  match mapGet w.Chunks key with
  | some _ => some []
  | none =>
    match insertPlaceholder w key with
    | none => none
    | some w0 => some (evictOldChunksTrace maxChunks w0).2

/-! ## chunkWorker -/

/-- The body of the loop of `chunkWorker` for the received `coords`: generate the
chunk, then, under the lock, store it, push the key back and evict. -/
def chunkWorkerBody (maxChunks : Nat) (w : World) (coords : Coord) : World :=
  let cx := coords.1
  let cy := coords.2
  let chunk := GenerateChunk cx cy
  evictOldChunks maxChunks
    { w with Chunks := mapSet w.Chunks (cx, cy) chunk, cacheQueue := w.cacheQueue ++ [(cx, cy)] }

/-- The receive of line 65: a worker takes the oldest key out of the channel (`none`:
the channel is empty and the worker waits). -/
def receiveKey (w : World) : Option (Coord × World) :=
  match w.genQueue with
  | [] => none
  | coords :: rest => some (coords, { w with genQueue := rest })

/-- One iteration of `chunkWorker`: receive the head of `genQueue` and run the body
(`none`: the channel is empty and the worker waits). -/
def chunkWorker (maxChunks : Nat) (w : World) : Option World :=
  match receiveKey w with
  | none => none
  | some r => some (chunkWorkerBody maxChunks r.2 r.1)

/-! ## Sequential runs -/

/-- A step of the Store: a `GetChunk` call, the receive of a worker, or the install step
of a worker (lines 69-73), for any coordinate. -/
inductive Step where
  | getChunk (cx cy : Int)
  | install (cx cy : Int)
  | receive

/-- The effect of one step on the world; `none` when the step cannot run to its end (a
`GetChunk` whose send waits, a receive on the empty channel). -/
def step (maxChunks : Nat) (w : World) : Step → Option World
  | Step.getChunk cx cy =>
    match GetChunk maxChunks w cx cy with
    | none => none
    | some r => some r.1
  | Step.install cx cy => some (chunkWorkerBody maxChunks w (cx, cy))
  | Step.receive =>
    match receiveKey w with
    | none => none
    | some r => some r.2

/-- The world after a sequence of steps from `w`; `none` when one of the steps cannot
run, so that the sequence is no execution of the program. -/
def runFrom (maxChunks : Nat) : World → List Step → Option World
  | w, [] => some w
  | w, s :: rest =>
    match step maxChunks w s with
    | none => none
    | some w1 => runFrom maxChunks w1 rest

/-- The world after a sequence of steps from the empty world. -/
def run (maxChunks : Nat) (steps : List Step) : Option World :=
  runFrom maxChunks NewWorld steps

/-- What holds of every reachable world: the list is within the capacity, every
key of the map occurs in the list, and the map has no repeated key. -/
def Inv (maxChunks : Nat) (w : World) : Prop :=
  w.cacheQueue.length ≤ maxChunks ∧
  (∀ c, c ∈ mapKeys w.Chunks → c ∈ w.cacheQueue) ∧
  (mapKeys w.Chunks).Nodup

/-- The coordinates `(a, 0), (a+1, 0), ..., (a+n-1, 0)`. -/
def coordsRange (a n : Nat) : List Coord :=
  (List.range n).map (fun i => (((a + i : Nat) : Int), (0 : Int)))

/-- The calls `GetChunk(a, 0), GetChunk(a+1, 0), ..., GetChunk(a+n-1, 0)`. -/
def getsRange (a n : Nat) : List Step :=
  (List.range n).map (fun i => Step.getChunk ((a + i : Nat) : Int) 0)

/-- The calls `GetChunk` on the coordinates of `cs` in order, with no worker step
in between: the final world and the keys deleted on the way, in order (`none` when one
of the calls does not return). -/
def getAll (maxChunks : Nat) : World → List Coord → Option (World × List Coord)
  | w, [] => some (w, [])
  | w, c :: cs =>
    match GetChunk maxChunks w c.1 c.2, GetChunkEvicted maxChunks w c.1 c.2 with
    | some r, some ev =>
      match getAll maxChunks r.1 cs with
      | some r2 => some (r2.1, ev ++ r2.2)
      | none => none
    | _, _ => none

/-- A world whose list is `cs` and whose map holds a placeholder for each of them. -/
def worldOf (cs : List Coord) : World :=
  { Chunks := cs.map (fun c => (c, placeholder)), cacheQueue := cs, genQueue := [] }

/-! ## Several threads inside GetChunk

`GetChunk` takes the lock twice: once (shared) for the lookup of line 109, and once
(exclusive) either inside `moveToBack` or for the block of lines 118-126.  Each
of the two sections is one atomic step of the calling thread; steps of different
threads interleave freely.  A thread whose send finds the channel full waits at line 122
with the lock in its hands; no worker receives in this model, so it waits for ever and
no other thread can enter a section. -/

/-- The place of a thread inside `GetChunk(key)`. -/
inductive Pc where
  | atLookup
  | atMoveToBack (chunk : Chunk)
  | atInsert
  | waitingAtSend
  | returnedHit (chunk : Chunk)
  | returnedMiss (ret : Option Chunk)

/-- The thread has returned from `GetChunk`. -/
def Pc.returned : Pc → Bool
  | Pc.returnedHit _ => true
  | Pc.returnedMiss _ => true
  | _ => false

/-- The thread has returned at line 126, after the block that inserts and sends. -/
def Pc.missed : Pc → Bool
  | Pc.returnedMiss _ => true
  | _ => false

/-- The thread waits at the send of line 122, holding `w.mu`. -/
def Pc.waiting : Pc → Bool
  | Pc.waitingAtSend => true
  | _ => false

/-- The next critical section of a thread that stands at `pc` in `GetChunk(key)`. -/
def threadStep (maxChunks : Nat) (key : Coord) (w : World) : Pc → World × Pc
  | Pc.atLookup =>
    match mapGet w.Chunks key with
    | some chunk => (w, Pc.atMoveToBack chunk)
    | none => (w, Pc.atInsert)
  | Pc.atMoveToBack chunk => (moveToBack w key, Pc.returnedHit chunk)
  | Pc.atInsert =>
    match insertPlaceholder w key with
    | none => (storePlaceholder w key, Pc.waitingAtSend)
    | some w0 =>
      let w1 := evictOldChunks maxChunks w0
      (w1, Pc.returnedMiss (mapGet w1.Chunks key))
  | Pc.waitingAtSend => (w, Pc.waitingAtSend)
  | Pc.returnedHit chunk => (w, Pc.returnedHit chunk)
  | Pc.returnedMiss ret => (w, Pc.returnedMiss ret)

/-- The shared world and the places of the threads, all of them in `GetChunk(key)`. -/
structure Sys where
  world : World
  pcs : List Pc

/-- All `n` threads are about to call `GetChunk`. -/
def initSys (w : World) (n : Nat) : Sys :=
  { world := w, pcs := List.replicate n Pc.atLookup }

/-- Thread `t` runs its next critical section.  Nothing happens if there is no thread `t`,
or if some thread waits at the send: it holds `w.mu`, so no section can be entered. -/
def sysStep (maxChunks : Nat) (key : Coord) (s : Sys) (t : Nat) : Sys :=
  if s.pcs.any Pc.waiting then s
  else
    match s.pcs[t]? with
    | none => s
    | some pc =>
      let r := threadStep maxChunks key s.world pc
      { world := r.1, pcs := s.pcs.set t r.2 }

/-- The threads run their critical sections in the order given by `sched`. -/
def runSchedule (maxChunks : Nat) (key : Coord) (s : Sys) (sched : List Nat) : Sys :=
  sched.foldl (sysStep maxChunks key) s

/-- Every thread has returned. -/
def allReturned (s : Sys) : Bool :=
  s.pcs.all Pc.returned

/-- The number of threads that returned through the inserting block. -/
def missCount (s : Sys) : Nat :=
  s.pcs.countP Pc.missed

/-- What holds along every schedule of `n` threads that call `GetChunk(key)` from the
world `w`. -/
def SchedInv (maxChunks n : Nat) (key : Coord) (w : World) (s : Sys) : Prop :=
  s.pcs.length = n ∧
  s.world.genQueue = w.genQueue ++ List.replicate (missCount s) key ∧
  (w.cacheQueue.length + n ≤ maxChunks →
    s.world.cacheQueue.Perm (w.cacheQueue ++ List.replicate (missCount s) key)) ∧
  (missCount s = 0 →
    (∀ pc, pc ∈ s.pcs → pc = Pc.atLookup ∨ pc = Pc.atInsert ∨ pc = Pc.waitingAtSend) ∧
    (s.pcs.any Pc.waiting = false → mapGet s.world.Chunks key = none)) ∧
  (1 ≤ missCount s → w.genQueue.length + missCount s ≤ GenQueueCap)

/-- The schedule in which the calls do not overlap: thread 0 runs its two sections, then
thread 1 its two sections, and so on up to thread `n - 1`. -/
def serialSched : Nat → List Nat
  | 0 => []
  | n + 1 => serialSched n ++ [n, n]

/-- The coordinates of the `GetChunk` calls of a sequence of steps, in order. -/
def callCoords : List Step → List Coord
  | [] => []
  | Step.getChunk cx cy :: rest => (cx, cy) :: callCoords rest
  | Step.install _ _ :: rest => callCoords rest
  | Step.receive :: rest => callCoords rest

/-- The number of receives in a sequence of steps. -/
def receiveCount : List Step → Nat
  | [] => 0
  | Step.receive :: rest => receiveCount rest + 1
  | Step.getChunk _ _ :: rest => receiveCount rest
  | Step.install _ _ :: rest => receiveCount rest

/-- No worker installs a chunk in the sequence of steps. -/
def noInstall : List Step → Bool
  | [] => true
  | Step.install _ _ :: _ => false
  | Step.getChunk _ _ :: rest => noInstall rest
  | Step.receive :: rest => noInstall rest

/-! # Proofs -/

/-! ## The map -/

theorem mapGet_mapDelete (m : ChunkMap) (k c : Coord) :
    mapGet (mapDelete m k) c = if k = c then none else mapGet m c := by
  induction m with
  | nil => simp [mapDelete, mapGet]
  | cons p rest ih =>
    obtain ⟨k0, v⟩ := p
    unfold mapDelete at ih ⊢
    by_cases h0 : k0 = k
    · subst h0
      by_cases hc : k0 = c
      · simp [List.filter_cons, hc] at ih ⊢
        simpa [hc] using ih
      · simp [List.filter_cons, hc, mapGet] at ih ⊢
        simpa [hc] using ih
    · by_cases hc : k = c
      · subst hc
        simp [List.filter_cons, h0, mapGet] at ih ⊢
        simpa using ih
      · simp [List.filter_cons, h0, mapGet, hc] at ih ⊢
        rw [ih]

theorem mapGet_mapSet (m : ChunkMap) (k c : Coord) (v : Chunk) :
    mapGet (mapSet m k v) c = if k = c then some v else mapGet m c := by
  by_cases h : k = c
  · simp [mapSet, mapGet, h]
  · simp [mapSet, mapGet, h, mapGet_mapDelete]

theorem mem_mapKeys_iff (m : ChunkMap) (c : Coord) :
    c ∈ mapKeys m ↔ mapGet m c ≠ none := by
  induction m with
  | nil => simp [mapKeys, mapGet]
  | cons p rest ih =>
    obtain ⟨k0, v⟩ := p
    by_cases h : k0 = c
    · simp [mapKeys, mapGet, h]
    · have h2 : ¬ c = k0 := fun e => h e.symm
      simp only [mapKeys, List.map_cons, List.mem_cons, mapGet, h, h2, if_false, false_or]
      simpa [mapKeys] using ih

theorem mapKeys_mapDelete (m : ChunkMap) (k : Coord) :
    mapKeys (mapDelete m k) = (mapKeys m).filter (fun c => decide (c ≠ k)) := by
  simp [mapKeys, mapDelete, List.filter_map, Function.comp_def]

theorem nodup_mapKeys_mapDelete (m : ChunkMap) (k : Coord) (h : (mapKeys m).Nodup) :
    (mapKeys (mapDelete m k)).Nodup := by
  rw [mapKeys_mapDelete]
  exact h.filter _

theorem nodup_mapKeys_mapSet (m : ChunkMap) (k : Coord) (v : Chunk) (h : (mapKeys m).Nodup) :
    (mapKeys (mapSet m k v)).Nodup := by
  have h1 : mapKeys (mapSet m k v) = k :: mapKeys (mapDelete m k) := by
    simp [mapSet, mapKeys]
  rw [h1, List.nodup_cons]
  refine ⟨?_, nodup_mapKeys_mapDelete m k h⟩
  rw [mem_mapKeys_iff, mapGet_mapDelete]
  simp

/-- Deleting a list of keys one after the other. -/
theorem mapGet_foldl_mapDelete (ks : List Coord) (m : ChunkMap) (c : Coord) :
    mapGet (ks.foldl mapDelete m) c = if c ∈ ks then none else mapGet m c := by
  induction ks generalizing m with
  | nil => simp
  | cons k rest ih =>
    rw [List.foldl_cons, ih, mapGet_mapDelete]
    by_cases h1 : c ∈ rest
    · simp [h1]
    · by_cases h2 : k = c
      · simp [h2]
      · have h3 : ¬ c = k := fun e => h2 e.symm
        simp [h1, h2, h3]

theorem nodup_mapKeys_foldl_mapDelete (ks : List Coord) (m : ChunkMap)
    (h : (mapKeys m).Nodup) : (mapKeys (ks.foldl mapDelete m)).Nodup := by
  induction ks generalizing m with
  | nil => simpa using h
  | cons k rest ih =>
    rw [List.foldl_cons]
    exact ih _ (nodup_mapKeys_mapDelete m k h)

/-! ## The eviction loop -/

/-- The world that `evictOldChunks` is shown to produce: the first
`len - maxChunks` entries are gone from the list and their keys from the map. -/
theorem evictLoop_enough (maxChunks : Nat) (fuel : Nat) (w : World) (log : List Coord)
    (hfuel : w.cacheQueue.length - maxChunks ≤ fuel) :
    evictLoop maxChunks fuel w log =
      some ({ Chunks := (w.cacheQueue.take (w.cacheQueue.length - maxChunks)).foldl mapDelete w.Chunks,
              cacheQueue := w.cacheQueue.drop (w.cacheQueue.length - maxChunks),
              genQueue := w.genQueue },
            log ++ w.cacheQueue.take (w.cacheQueue.length - maxChunks)) := by
  induction fuel generalizing w log with
  | zero =>
    have h0 : w.cacheQueue.length - maxChunks = 0 := by omega
    have h1 : ¬ w.cacheQueue.length > maxChunks := by omega
    simp [evictLoop, h1, h0]
  | succ fuel ih =>
    by_cases h1 : w.cacheQueue.length > maxChunks
    · obtain ⟨chunks, q, g⟩ := w
      cases q with
      | nil => simp at h1
      | cons key rest =>
        simp only [List.length_cons] at h1 hfuel
        have h2 : rest.length + 1 - maxChunks = (rest.length - maxChunks) + 1 := by omega
        have h3 := ih { Chunks := mapDelete chunks key, cacheQueue := rest, genQueue := g }
          (log ++ [key]) (by simp only; omega)
        simp only [evictLoop, List.length_cons, gt_iff_lt, h1, if_true]
        rw [h3, h2]
        simp
    · have h0 : w.cacheQueue.length - maxChunks = 0 := by omega
      simp [evictLoop, h1, h0]

theorem evictOldChunksTrace_eq (maxChunks : Nat) (w : World) :
    evictOldChunksTrace maxChunks w =
      ({ Chunks := (w.cacheQueue.take (w.cacheQueue.length - maxChunks)).foldl mapDelete w.Chunks,
         cacheQueue := w.cacheQueue.drop (w.cacheQueue.length - maxChunks),
         genQueue := w.genQueue },
       w.cacheQueue.take (w.cacheQueue.length - maxChunks)) := by
  unfold evictOldChunksTrace
  rw [evictLoop_enough maxChunks _ w [] (by omega)]
  simp

theorem evictOldChunks_eq (maxChunks : Nat) (w : World) :
    evictOldChunks maxChunks w =
      { Chunks := (w.cacheQueue.take (w.cacheQueue.length - maxChunks)).foldl mapDelete w.Chunks,
        cacheQueue := w.cacheQueue.drop (w.cacheQueue.length - maxChunks),
        genQueue := w.genQueue } := by
  unfold evictOldChunks
  rw [evictOldChunksTrace_eq]

theorem evictOldChunks_of_le (maxChunks : Nat) (w : World)
    (h : w.cacheQueue.length ≤ maxChunks) : evictOldChunks maxChunks w = w := by
  rw [evictOldChunks_eq]
  have h0 : w.cacheQueue.length - maxChunks = 0 := by omega
  simp [h0]

theorem evictOldChunks_length_le (maxChunks : Nat) (w : World) :
    (evictOldChunks maxChunks w).cacheQueue.length ≤ maxChunks := by
  rw [evictOldChunks_eq]
  simp only [List.length_drop]
  omega

theorem evictOldChunks_genQueue (maxChunks : Nat) (w : World) :
    (evictOldChunks maxChunks w).genQueue = w.genQueue := by
  rw [evictOldChunks_eq]

theorem evictOldChunks_mapGet (maxChunks : Nat) (w : World) (c : Coord) :
    mapGet (evictOldChunks maxChunks w).Chunks c =
      if c ∈ w.cacheQueue.take (w.cacheQueue.length - maxChunks) then none
      else mapGet w.Chunks c := by
  rw [evictOldChunks_eq]
  exact mapGet_foldl_mapDelete _ _ _

/-! ## moveToBack -/

theorem moveToBackLoop_of_not_mem (key : Coord) (seen rest : List Coord) (h : key ∉ rest) :
    moveToBackLoop key seen rest = seen ++ rest := by
  induction rest generalizing seen with
  | nil => simp [moveToBackLoop]
  | cons e rest ih =>
    have h1 : ¬ e = key := fun x => h (by simp [x])
    have h2 : key ∉ rest := fun x => h (by simp [x])
    simp [moveToBackLoop, h1, ih _ h2]

theorem moveToBackLoop_of_split (key : Coord) (seen l1 l2 : List Coord) (h : key ∉ l1) :
    moveToBackLoop key seen (l1 ++ key :: l2) = seen ++ l1 ++ l2 ++ [key] := by
  induction l1 generalizing seen with
  | nil => simp [moveToBackLoop]
  | cons e rest ih =>
    have h1 : ¬ e = key := fun x => h (by simp [x])
    have h2 : key ∉ rest := fun x => h (by simp [x])
    simp [moveToBackLoop, h1, ih _ h2]

/-- The first occurrence of an element splits the list around it. -/
theorem exists_first_split (key : Coord) (q : List Coord) (h : key ∈ q) :
    ∃ l1 l2, q = l1 ++ key :: l2 ∧ key ∉ l1 := by
  induction q with
  | nil => simp at h
  | cons e rest ih =>
    by_cases h1 : e = key
    · exact ⟨[], rest, by simp [h1], by simp⟩
    · have h2 : key ∈ rest := by
        rcases List.mem_cons.mp h with h3 | h3
        · exact absurd h3.symm h1
        · exact h3
      obtain ⟨l1, l2, h4, h5⟩ := ih h2
      refine ⟨e :: l1, l2, by simp [h4], ?_⟩
      intro h6
      rcases List.mem_cons.mp h6 with h7 | h7
      · exact h1 h7.symm
      · exact h5 h7

theorem moveToBack_of_not_mem (w : World) (key : Coord) (h : key ∉ w.cacheQueue) :
    moveToBack w key = w := by
  simp [moveToBack, moveToBackLoop_of_not_mem key [] _ h]

theorem moveToBack_of_split (w : World) (key : Coord) (l1 l2 : List Coord)
    (hq : w.cacheQueue = l1 ++ key :: l2) (h : key ∉ l1) :
    (moveToBack w key).cacheQueue = l1 ++ l2 ++ [key] := by
  simp [moveToBack, hq, moveToBackLoop_of_split key [] l1 l2 h]

theorem moveToBack_perm (w : World) (key : Coord) :
    (moveToBack w key).cacheQueue.Perm w.cacheQueue := by
  by_cases h : key ∈ w.cacheQueue
  · obtain ⟨l1, l2, hq, h1⟩ := exists_first_split key _ h
    rw [moveToBack_of_split w key l1 l2 hq h1, hq]
    have h2 : (l1 ++ l2 ++ [key]).Perm (l1 ++ (l2 ++ [key])) := by simp
    refine h2.trans (List.Perm.append_left l1 ?_)
    simp
  · rw [moveToBack_of_not_mem w key h]

/-! ## The invariant of the reachable states -/

theorem inv_evictOldChunks (maxChunks : Nat) (w : World)
    (hsub : ∀ c, c ∈ mapKeys w.Chunks → c ∈ w.cacheQueue)
    (hnd : (mapKeys w.Chunks).Nodup) : Inv maxChunks (evictOldChunks maxChunks w) := by
  refine ⟨evictOldChunks_length_le maxChunks w, ?_, ?_⟩
  · intro c hc
    rw [mem_mapKeys_iff, evictOldChunks_mapGet] at hc
    by_cases h1 : c ∈ w.cacheQueue.take (w.cacheQueue.length - maxChunks)
    · simp [h1] at hc
    · simp only [h1, if_false] at hc
      have h2 : c ∈ w.cacheQueue := hsub c ((mem_mapKeys_iff _ _).mpr hc)
      rw [← List.take_append_drop (w.cacheQueue.length - maxChunks) w.cacheQueue,
        List.mem_append] at h2
      rw [evictOldChunks_eq]
      rcases h2 with h3 | h3
      · exact absurd h3 h1
      · exact h3
  · rw [evictOldChunks_eq]
    exact nodup_mapKeys_foldl_mapDelete _ _ hnd

theorem mem_mapKeys_mapSet (m : ChunkMap) (k c : Coord) (v : Chunk) :
    c ∈ mapKeys (mapSet m k v) ↔ c = k ∨ c ∈ mapKeys m := by
  rw [mem_mapKeys_iff, mem_mapKeys_iff, mapGet_mapSet]
  by_cases h : k = c
  · simp [h]
  · have h2 : ¬ c = k := fun e => h e.symm
    simp [h, h2]

theorem inv_insertThenEvict (maxChunks : Nat) (w : World) (key : Coord) (v : Chunk)
    (g : List Coord) (h : Inv maxChunks w) :
    Inv maxChunks (evictOldChunks maxChunks
      { Chunks := mapSet w.Chunks key v, cacheQueue := w.cacheQueue ++ [key], genQueue := g }) := by
  apply inv_evictOldChunks
  · intro c hc
    rw [mem_mapKeys_mapSet] at hc
    simp only [List.mem_append, List.mem_singleton]
    rcases hc with h1 | h1
    · exact Or.inr h1
    · exact Or.inl (h.2.1 c h1)
  · exact nodup_mapKeys_mapSet _ _ _ h.2.2

theorem inv_moveToBack (maxChunks : Nat) (w : World) (key : Coord) (h : Inv maxChunks w) :
    Inv maxChunks (moveToBack w key) := by
  have hp := moveToBack_perm w key
  refine ⟨?_, ?_, ?_⟩
  · rw [hp.length_eq]
    exact h.1
  · intro c hc
    exact hp.mem_iff.mpr (h.2.1 c hc)
  · exact h.2.2

/-! ### The three outcomes of `GetChunk` -/

theorem insertPlaceholder_of_room (w : World) (key : Coord)
    (h : w.genQueue.length < GenQueueCap) :
    insertPlaceholder w key = some (afterInsert w key) := by
  simp [insertPlaceholder, h]

theorem insertPlaceholder_of_full (w : World) (key : Coord)
    (h : GenQueueCap ≤ w.genQueue.length) : insertPlaceholder w key = none := by
  have h1 : ¬ w.genQueue.length < GenQueueCap := by omega
  simp [insertPlaceholder, h1]

theorem GetChunk_hit (maxChunks : Nat) (w : World) (cx cy : Int) (chunk : Chunk)
    (h : mapGet w.Chunks (cx, cy) = some chunk) :
    GetChunk maxChunks w cx cy = some (moveToBack w (cx, cy), some chunk) := by
  simp [GetChunk, h]

theorem GetChunk_miss (maxChunks : Nat) (w : World) (cx cy : Int)
    (h : mapGet w.Chunks (cx, cy) = none) (hroom : w.genQueue.length < GenQueueCap) :
    GetChunk maxChunks w cx cy =
      some (evictOldChunks maxChunks (afterInsert w (cx, cy)),
        mapGet (evictOldChunks maxChunks (afterInsert w (cx, cy))).Chunks (cx, cy)) := by
  simp [GetChunk, h, insertPlaceholder_of_room w (cx, cy) hroom]

theorem GetChunk_waits (maxChunks : Nat) (w : World) (cx cy : Int)
    (h : mapGet w.Chunks (cx, cy) = none) (hfull : GenQueueCap ≤ w.genQueue.length) :
    GetChunk maxChunks w cx cy = none := by
  simp [GetChunk, h, insertPlaceholder_of_full w (cx, cy) hfull]

/-- A call of `GetChunk` returns exactly when the key is in the map or the channel has
room. -/
theorem GetChunk_isSome_iff (maxChunks : Nat) (w : World) (cx cy : Int) :
    (GetChunk maxChunks w cx cy).isSome = true ↔
      (mapGet w.Chunks (cx, cy) ≠ none ∨ w.genQueue.length < GenQueueCap) := by
  cases hget : mapGet w.Chunks (cx, cy) with
  | some chunk => simp [GetChunk_hit maxChunks w cx cy chunk hget]
  | none =>
    by_cases hroom : w.genQueue.length < GenQueueCap
    · simp [GetChunk_miss maxChunks w cx cy hget hroom, hroom]
    · simp [GetChunk_waits maxChunks w cx cy hget (by omega), hroom]

theorem inv_receive (maxChunks : Nat) (w : World) (r : Coord × World)
    (hr : receiveKey w = some r) (h : Inv maxChunks w) : Inv maxChunks r.2 := by
  unfold receiveKey at hr
  cases hg : w.genQueue with
  | nil => simp [hg] at hr
  | cons c rest =>
    simp only [hg, Option.some.injEq] at hr
    subst hr
    exact h

theorem inv_step (maxChunks : Nat) (w w1 : World) (s : Step) (h : Inv maxChunks w)
    (hs : step maxChunks w s = some w1) : Inv maxChunks w1 := by
  cases s with
  | getChunk cx cy =>
    simp only [step] at hs
    cases hget : mapGet w.Chunks (cx, cy) with
    | some chunk =>
      rw [GetChunk_hit maxChunks w cx cy chunk hget] at hs
      simp only [Option.some.injEq] at hs
      subst hs
      exact inv_moveToBack maxChunks w (cx, cy) h
    | none =>
      by_cases hroom : w.genQueue.length < GenQueueCap
      · rw [GetChunk_miss maxChunks w cx cy hget hroom] at hs
        simp only [Option.some.injEq] at hs
        subst hs
        exact inv_insertThenEvict maxChunks w (cx, cy) placeholder _ h
      · rw [GetChunk_waits maxChunks w cx cy hget (by omega)] at hs
        simp at hs
  | install cx cy =>
    simp only [step, Option.some.injEq] at hs
    subst hs
    exact inv_insertThenEvict maxChunks w (cx, cy) (GenerateChunk cx cy) _ h
  | receive =>
    simp only [step] at hs
    cases hr : receiveKey w with
    | none => simp [hr] at hs
    | some r =>
      simp only [hr, Option.some.injEq] at hs
      subst hs
      exact inv_receive maxChunks w r hr h

theorem inv_NewWorld (maxChunks : Nat) : Inv maxChunks NewWorld := by
  simp [Inv, NewWorld, mapKeys]

theorem inv_runFrom (maxChunks : Nat) (w w1 : World) (steps : List Step) (h : Inv maxChunks w)
    (hr : runFrom maxChunks w steps = some w1) : Inv maxChunks w1 := by
  induction steps generalizing w with
  | nil =>
    simp only [runFrom, Option.some.injEq] at hr
    subst hr
    exact h
  | cons s rest ih =>
    simp only [runFrom] at hr
    cases hs : step maxChunks w s with
    | none => simp [hs] at hr
    | some w2 =>
      simp only [hs] at hr
      exact ih w2 (inv_step maxChunks w w2 s h hs) hr

theorem inv_run (maxChunks : Nat) (steps : List Step) (w : World)
    (hr : run maxChunks steps = some w) : Inv maxChunks w :=
  inv_runFrom maxChunks NewWorld w steps (inv_NewWorld maxChunks) hr

theorem runFrom_cons_of_step (maxChunks : Nat) (w w1 : World) (s : Step) (rest : List Step)
    (h : step maxChunks w s = some w1) :
    runFrom maxChunks w (s :: rest) = runFrom maxChunks w1 rest := by
  simp [runFrom, h]

/-- The initial parts of an execution are executions. -/
theorem runFrom_take_isSome (maxChunks : Nat) (steps : List Step) (n : Nat) :
    ∀ w w1, runFrom maxChunks w steps = some w1 →
      ∃ w2, runFrom maxChunks w (steps.take n) = some w2 := by
  induction steps generalizing n with
  | nil =>
    intro w w1 _
    exact ⟨w, by simp [runFrom]⟩
  | cons s rest ih =>
    intro w w1 hr
    cases n with
    | zero => exact ⟨w, by simp [runFrom]⟩
    | succ n =>
      simp only [runFrom] at hr
      cases hs : step maxChunks w s with
      | none => simp [hs] at hr
      | some w3 =>
        simp only [hs] at hr
        obtain ⟨w2, h2⟩ := ih n w3 w1 hr
        exact ⟨w2, by simp [runFrom, hs, h2]⟩

theorem inv_numKeys (maxChunks : Nat) (w : World) (h : Inv maxChunks w) :
    (mapKeys w.Chunks).length ≤ maxChunks := by
  have h1 : (mapKeys w.Chunks).Subperm w.cacheQueue :=
    List.subperm_of_subset h.2.2 (fun c hc => h.2.1 c hc)
  exact le_trans h1.length_le h.1

/-! ## C1: the capacity invariant -/

/-- C1. Capacity invariant: from the empty world, after each step of any sequence of
`GetChunk` calls, worker receives and worker install steps that the program can run (that
is, in the world `w` reached by any initial part `steps.take n` of such a sequence), the
map has no repeated key and the number of its keys is at most the capacity; this holds for
every capacity, and so for `MaxChunks = 50` (second part). -/
theorem c1_capacity_invariant :
    (∀ (maxChunks : Nat) (steps : List Step) (n : Nat) (w : World),
      run maxChunks (steps.take n) = some w →
      (mapKeys w.Chunks).Nodup ∧ (mapKeys w.Chunks).length ≤ maxChunks) ∧
    (∀ (steps : List Step) (n : Nat) (w : World),
      run MaxChunks (steps.take n) = some w →
      (mapKeys w.Chunks).Nodup ∧ (mapKeys w.Chunks).length ≤ 50) := by
  have h : ∀ (maxChunks : Nat) (steps : List Step) (n : Nat) (w : World),
      run maxChunks (steps.take n) = some w →
      (mapKeys w.Chunks).Nodup ∧ (mapKeys w.Chunks).length ≤ maxChunks := by
    intro maxChunks steps n w hr
    have hinv := inv_run maxChunks (steps.take n) w hr
    exact ⟨hinv.2.2, inv_numKeys maxChunks _ hinv⟩
  exact ⟨h, fun steps n w hr => h MaxChunks steps n w hr⟩

set_option maxRecDepth 100000 in
/-- Witness of C1 with `MaxChunks = 50`: the first 65 steps of the sequence made of 4
calls, the receives of the four workers, 56 more calls and the install of `(0,0)` are an
execution, and the world they reach has at most 50 keys. -/
theorem c1_capacity_invariant_witness :
    ∃ w, run MaxChunks ((getsRange 0 4 ++ List.replicate ChunkWorkers Step.receive ++
        getsRange 4 56 ++ [Step.install 0 0, Step.getChunk 0 0]).take 65) = some w ∧
      (mapKeys w.Chunks).Nodup ∧ (mapKeys w.Chunks).length ≤ 50 := by
  have hs : (run MaxChunks ((getsRange 0 4 ++ List.replicate ChunkWorkers Step.receive ++
      getsRange 4 56 ++ [Step.install 0 0, Step.getChunk 0 0]).take 65)).isSome = true := by
    decide
  obtain ⟨w, hw⟩ := Option.isSome_iff_exists.mp hs
  exact ⟨w, hw, c1_capacity_invariant.2 _ 65 w hw⟩

/-! ## C8: the eviction step -/

/-- C8. Eviction step, for a list of length `L` and any capacity (so for `MaxChunks`):
the loop of `evictOldChunks` ends within `L - maxChunks` iterations with the result of
`evictOldChunks`; if `L ≤ maxChunks` nothing changes and nothing is deleted; if
`L > maxChunks` the keys deleted are, in order, the first `L - maxChunks` entries of the
list, the list keeps its last `maxChunks` entries in their order, each removed
coordinate is no longer a key of the map, every other key keeps its chunk, and the
channel is untouched. -/
theorem c8_evictOldChunks_spec (maxChunks : Nat) (w : World) :
    (∀ fuel, w.cacheQueue.length - maxChunks ≤ fuel →
      evictLoop maxChunks fuel w [] = some (evictOldChunksTrace maxChunks w)) ∧
    (w.cacheQueue.length ≤ maxChunks →
      evictOldChunks maxChunks w = w ∧ (evictOldChunksTrace maxChunks w).2 = []) ∧
    (maxChunks < w.cacheQueue.length →
      (evictOldChunksTrace maxChunks w).2 =
        w.cacheQueue.take (w.cacheQueue.length - maxChunks) ∧
      (evictOldChunks maxChunks w).cacheQueue =
        w.cacheQueue.drop (w.cacheQueue.length - maxChunks) ∧
      (evictOldChunks maxChunks w).cacheQueue.length = maxChunks ∧
      (∀ c, c ∈ w.cacheQueue.take (w.cacheQueue.length - maxChunks) →
        mapGet (evictOldChunks maxChunks w).Chunks c = none) ∧
      (∀ c, c ∉ w.cacheQueue.take (w.cacheQueue.length - maxChunks) →
        mapGet (evictOldChunks maxChunks w).Chunks c = mapGet w.Chunks c) ∧
      (evictOldChunks maxChunks w).genQueue = w.genQueue) := by
  refine ⟨?_, ?_, ?_⟩
  · intro fuel hfuel
    rw [evictLoop_enough maxChunks fuel w [] hfuel, evictOldChunksTrace_eq]
    simp
  · intro hle
    refine ⟨evictOldChunks_of_le maxChunks w hle, ?_⟩
    have h0 : w.cacheQueue.length - maxChunks = 0 := by omega
    rw [evictOldChunksTrace_eq]
    simp [h0]
  · intro hlt
    refine ⟨?_, ?_, ?_, ?_, ?_, evictOldChunks_genQueue maxChunks w⟩
    · rw [evictOldChunksTrace_eq]
    · rw [evictOldChunks_eq]
    · rw [evictOldChunks_eq]
      simp only [List.length_drop]
      omega
    · intro c hc
      rw [evictOldChunks_mapGet]
      simp [hc]
    · intro c hc
      rw [evictOldChunks_mapGet]
      simp [hc]

set_option maxRecDepth 100000 in
/-- Witness of C8 with `MaxChunks = 50`: a world whose list holds the 51 coordinates
`(0,0), ..., (50,0)`, each with a placeholder in the map; the eviction check brings the
list back to 50 entries and deletes the oldest key `(0,0)`. -/
theorem c8_evictOldChunks_spec_witness :
    MaxChunks < (worldOf (coordsRange 0 51)).cacheQueue.length ∧
    (evictOldChunks MaxChunks (worldOf (coordsRange 0 51))).cacheQueue.length = 50 ∧
    (mapGet (worldOf (coordsRange 0 51)).Chunks (0, 0)).isSome = true ∧
    mapGet (evictOldChunks MaxChunks (worldOf (coordsRange 0 51))).Chunks (0, 0) = none := by
  have hlen : MaxChunks < (worldOf (coordsRange 0 51)).cacheQueue.length := by decide
  have h := (c8_evictOldChunks_spec MaxChunks (worldOf (coordsRange 0 51))).2.2 hlen
  exact ⟨hlen, h.2.2.1, by decide, h.2.2.2.1 (0, 0) (by decide)⟩

/-! ## C9: a key is sent exactly on a miss, if the channel has room -/

set_option maxRecDepth 100000 in
/-- C9 fails on the code for a miss on a full channel.  With `MaxChunks = 50`: after 4 calls
of `GetChunk`, the receives of the four workers and 100 more calls on distinct coordinates
(no install), the channel holds 100 keys; `(104,0)` is no key of the map, and the call
`GetChunk(104,0)` does not return: its send waits, and nothing is appended. -/
theorem c9_getChunk_waits_on_full_channel :
    (run MaxChunks (getsRange 0 4 ++ List.replicate ChunkWorkers Step.receive ++
      getsRange 4 100)).map (fun w => w.genQueue.length) = some 100 ∧
    (run MaxChunks (getsRange 0 4 ++ List.replicate ChunkWorkers Step.receive ++
      getsRange 4 100)).map (fun w => mapGet w.Chunks (104, 0)) = some none ∧
    (run MaxChunks (getsRange 0 4 ++ List.replicate ChunkWorkers Step.receive ++
      getsRange 4 100)).map (fun w => (GetChunk MaxChunks w 104 0).isNone) = some true := by
  decide

/-- C9 as amended.  For every world and coordinate: if the coordinate is a key of the map,
`GetChunk` returns the chunk stored for it and leaves the channel and the map as they
were; if it is not a key and the channel holds fewer than `GenQueueCap = 100` keys,
`GetChunk` returns and the channel afterwards is the former channel followed by one copy
of the coordinate and nothing else; if it is not a key and the channel is full, the call
does not return. -/
theorem c9_getChunk_enqueue_on_miss (maxChunks : Nat) (w : World) (cx cy : Int) :
    (∀ chunk, mapGet w.Chunks (cx, cy) = some chunk →
      ∃ w1, GetChunk maxChunks w cx cy = some (w1, some chunk) ∧
        w1.genQueue = w.genQueue ∧ w1.Chunks = w.Chunks) ∧
    (mapGet w.Chunks (cx, cy) = none → w.genQueue.length < GenQueueCap →
      ∃ w1 ret, GetChunk maxChunks w cx cy = some (w1, ret) ∧
        w1.genQueue = w.genQueue ++ [(cx, cy)]) ∧
    (mapGet w.Chunks (cx, cy) = none → GenQueueCap ≤ w.genQueue.length →
      GetChunk maxChunks w cx cy = none) := by
  refine ⟨?_, ?_, ?_⟩
  · intro chunk h
    exact ⟨moveToBack w (cx, cy), GetChunk_hit maxChunks w cx cy chunk h, rfl, rfl⟩
  · intro h hroom
    refine ⟨_, _, GetChunk_miss maxChunks w cx cy h hroom, ?_⟩
    simp [evictOldChunks_genQueue, afterInsert]
  · intro h hfull
    exact GetChunk_waits maxChunks w cx cy h hfull

set_option maxRecDepth 100000 in
/-- Witness of the amended C9 with capacity 3.  In the world with the keys `(0,0), (1,0)`
and an empty channel, `(0,0)` is a key and `GetChunk(0,0)` sends nothing, `(2,0)` is no key
and `GetChunk(2,0)` sends it once; with 100 keys in the channel `GetChunk(2,0)` does not
return. -/
theorem c9_getChunk_enqueue_on_miss_witness :
    mapGet (worldOf (coordsRange 0 2)).Chunks (0, 0) = some placeholder ∧
    (∃ w1, GetChunk 3 (worldOf (coordsRange 0 2)) 0 0 = some (w1, some placeholder) ∧
      w1.genQueue = []) ∧
    mapGet (worldOf (coordsRange 0 2)).Chunks (2, 0) = none ∧
    (worldOf (coordsRange 0 2)).genQueue.length < GenQueueCap ∧
    (∃ w1 ret, GetChunk 3 (worldOf (coordsRange 0 2)) 2 0 = some (w1, ret) ∧
      w1.genQueue = [(2, 0)]) ∧
    GenQueueCap ≤
      ({ worldOf (coordsRange 0 2) with genQueue := coordsRange 0 100 } : World).genQueue.length ∧
    GetChunk 3 { worldOf (coordsRange 0 2) with genQueue := coordsRange 0 100 } 2 0 = none := by
  have hhit : mapGet (worldOf (coordsRange 0 2)).Chunks (0, 0) = some placeholder := rfl
  have hmiss : mapGet (worldOf (coordsRange 0 2)).Chunks (2, 0) = none := by decide
  have hroom : (worldOf (coordsRange 0 2)).genQueue.length < GenQueueCap := by decide
  have hfull : GenQueueCap ≤
      ({ worldOf (coordsRange 0 2) with genQueue := coordsRange 0 100 } : World).genQueue.length := by
    decide
  obtain ⟨w1, h1, h2, -⟩ :=
    (c9_getChunk_enqueue_on_miss 3 (worldOf (coordsRange 0 2)) 0 0).1 placeholder hhit
  obtain ⟨w2, ret, h3, h4⟩ :=
    (c9_getChunk_enqueue_on_miss 3 (worldOf (coordsRange 0 2)) 2 0).2.1 hmiss hroom
  have h5 := (c9_getChunk_enqueue_on_miss 3
    { worldOf (coordsRange 0 2) with genQueue := coordsRange 0 100 } 2 0).2.2 hmiss hfull
  exact ⟨hhit, ⟨w1, h1, h2⟩, hmiss, hroom, ⟨w2, ret, h3, h4⟩, hfull, h5⟩

/-! ## C7: a hit promotes the key -/

/-- C7. Touch promotes to most-recently-used.  In every world `w` reached from the empty
world by `GetChunk` calls and worker steps, and for every key `c` of the map,
`GetChunk(c)` returns the stored chunk, leaves the map and the channel as they were, and
the list `l1 ++ c :: l2` (with `c` not in `l1`, so this is the first entry for `c`)
becomes `l1 ++ l2 ++ [c]`: a permutation of the former list that ends in `c` and in which
all other entries keep their order.  And `moveToBack` on a coordinate that is not in the
list changes nothing, in any world. -/
theorem c7_getChunk_hit_promotes (maxChunks : Nat) (steps : List Step) (w : World) (c : Coord)
    (hrun : run maxChunks steps = some w) (h : c ∈ mapKeys w.Chunks) :
    (∃ chunk l1 l2 w1,
      mapGet w.Chunks c = some chunk ∧
      GetChunk maxChunks w c.1 c.2 = some (w1, some chunk) ∧
      w1.Chunks = w.Chunks ∧
      w1.genQueue = w.genQueue ∧
      w.cacheQueue = l1 ++ c :: l2 ∧ c ∉ l1 ∧
      w1.cacheQueue = l1 ++ l2 ++ [c] ∧
      w1.cacheQueue.Perm w.cacheQueue ∧
      w1.cacheQueue.getLast? = some c) ∧
    (∀ (w0 : World) (key : Coord), key ∉ w0.cacheQueue → moveToBack w0 key = w0) := by
  refine ⟨?_, fun w0 key hk => moveToBack_of_not_mem w0 key hk⟩
  have hinv := inv_run maxChunks steps w hrun
  have hmem : c ∈ w.cacheQueue := hinv.2.1 c h
  obtain ⟨l1, l2, hq, hl1⟩ := exists_first_split c _ hmem
  rw [mem_mapKeys_iff] at h
  cases hget : mapGet w.Chunks c with
  | none => exact absurd hget h
  | some chunk =>
    have hG := GetChunk_hit maxChunks w c.1 c.2 chunk hget
    have hmv := moveToBack_of_split w c l1 l2 hq hl1
    refine ⟨chunk, l1, l2, moveToBack w c, rfl, hG, rfl, rfl, hq, hl1, hmv,
      moveToBack_perm w c, ?_⟩
    rw [hmv]
    simp

set_option maxRecDepth 100000 in
/-- Witness of C7, the scenario of the specification with capacity 3: after the accesses
`(0,0), (1,0), (2,0)` the key `(0,0)` is resident; touching it makes it the last entry of
the list; the accesses `(0,0), (1,0), (2,0), (0,0), (3,0)` end with the list
`(2,0), (0,0), (3,0)`: `(1,0)` is evicted and `(0,0)` is kept. -/
theorem c7_getChunk_hit_promotes_witness :
    (∃ w w1 chunk, run 3 (getsRange 0 3) = some w ∧ (0, 0) ∈ mapKeys w.Chunks ∧
      GetChunk 3 w 0 0 = some (w1, some chunk) ∧ w1.cacheQueue.getLast? = some (0, 0)) ∧
    (run 3 (getsRange 0 3 ++ [Step.getChunk 0 0, Step.getChunk 3 0])).map
      (fun w => w.cacheQueue) = some [(2, 0), (0, 0), (3, 0)] ∧
    (run 3 (getsRange 0 3 ++ [Step.getChunk 0 0, Step.getChunk 3 0])).map
      (fun w => mapGet w.Chunks (1, 0)) = some none ∧
    (run 3 (getsRange 0 3 ++ [Step.getChunk 0 0, Step.getChunk 3 0])).map
      (fun w => (mapGet w.Chunks (0, 0)).isSome) = some true := by
  refine ⟨?_, by decide, by decide, by decide⟩
  have hs : (run 3 (getsRange 0 3)).isSome = true := by decide
  obtain ⟨w, hw⟩ := Option.isSome_iff_exists.mp hs
  have hk : (0, 0) ∈ mapKeys w.Chunks := by
    have h1 : (run 3 (getsRange 0 3)).map (fun w => decide ((0, 0) ∈ mapKeys w.Chunks)) =
        some true := by decide
    rw [hw] at h1
    simpa using h1
  obtain ⟨⟨chunk, l1, l2, w1, -, hG, -, -, -, -, -, -, hlast⟩, -⟩ :=
    c7_getChunk_hit_promotes 3 (getsRange 0 3) w (0, 0) hw hk
  exact ⟨w, w1, chunk, hw, hk, hG, hlast⟩

/-! ## C6: strict LRU order for distinct accesses, within the buffer of the channel -/

theorem GetChunkEvicted_miss (maxChunks : Nat) (w : World) (cx cy : Int)
    (h : mapGet w.Chunks (cx, cy) = none) (hroom : w.genQueue.length < GenQueueCap) :
    GetChunkEvicted maxChunks w cx cy =
      some ((w.cacheQueue ++ [(cx, cy)]).take
        ((w.cacheQueue ++ [(cx, cy)]).length - maxChunks)) := by
  simp [GetChunkEvicted, h, insertPlaceholder_of_room w (cx, cy) hroom, evictOldChunksTrace_eq,
    afterInsert]

theorem GetChunkEvicted_waits (maxChunks : Nat) (w : World) (cx cy : Int)
    (h : mapGet w.Chunks (cx, cy) = none) (hfull : GenQueueCap ≤ w.genQueue.length) :
    GetChunkEvicted maxChunks w cx cy = none := by
  simp [GetChunkEvicted, h, insertPlaceholder_of_full w (cx, cy) hfull]

theorem mem_take_or_drop {α : Type} (k : Nat) (l : List α) (x : α) (h : x ∈ l) :
    x ∈ l.take k ∨ x ∈ l.drop k := by
  rw [← List.take_append_drop k l, List.mem_append] at h
  exact h

theorem not_mem_take_and_drop {α : Type} (k : Nat) (l : List α) (x : α) (hnd : l.Nodup)
    (h1 : x ∈ l.take k) (h2 : x ∈ l.drop k) : False := by
  rw [← List.take_append_drop k l] at hnd
  exact (List.nodup_append.mp hnd).2.2 h1 h2

/-- The world after the miss on a coordinate that is new to a world holding only
placeholders, one for each entry of its list. -/
theorem fresh_miss_world (N : Nat) (w : World) (q : List Coord) (c : Coord)
    (hq : w.cacheQueue = q)
    (hmap : ∀ x, mapGet w.Chunks x = if x ∈ q then some placeholder else none)
    (hX : (q ++ [c]).Nodup) :
    (evictOldChunks N (afterInsert w c)).cacheQueue =
      (q ++ [c]).drop ((q ++ [c]).length - N) ∧
    (evictOldChunks N (afterInsert w c)).genQueue = w.genQueue ++ [c] ∧
    (∀ x, mapGet (evictOldChunks N (afterInsert w c)).Chunks x =
      if x ∈ (q ++ [c]).drop ((q ++ [c]).length - N) then some placeholder else none) := by
  have hiq : (afterInsert w c).cacheQueue = q ++ [c] := by simp [afterInsert, hq]
  refine ⟨?_, ?_, ?_⟩
  · rw [evictOldChunks_eq, hiq]
  · rw [evictOldChunks_genQueue]
    simp [afterInsert]
  · intro x
    rw [evictOldChunks_mapGet]
    have him : mapGet (afterInsert w c).Chunks x =
        if x ∈ q ++ [c] then some placeholder else none := by
      simp only [afterInsert, mapGet_mapSet, hmap x, List.mem_append, List.mem_singleton]
      by_cases hxc : c = x
      · subst hxc; simp
      · have hxc2 : ¬ x = c := fun e => hxc e.symm
        simp [hxc, hxc2]
    rw [hiq, him]
    by_cases hx : x ∈ q ++ [c]
    · rcases mem_take_or_drop ((q ++ [c]).length - N) _ x hx with h1 | h1
      · have h2 : x ∉ (q ++ [c]).drop ((q ++ [c]).length - N) :=
          fun h2 => not_mem_take_and_drop _ _ x hX h1 h2
        rw [if_pos h1, if_neg h2]
      · have h2 : x ∉ (q ++ [c]).take ((q ++ [c]).length - N) :=
          fun h2 => not_mem_take_and_drop _ _ x hX h2 h1
        rw [if_neg h2, if_pos hx, if_pos h1]
    · have h1 : x ∉ (q ++ [c]).take ((q ++ [c]).length - N) :=
        fun h => hx (List.mem_of_mem_take h)
      have h2 : x ∉ (q ++ [c]).drop ((q ++ [c]).length - N) :=
        fun h => hx (List.mem_of_mem_drop h)
      rw [if_neg h1, if_neg hx, if_neg h2]

theorem getAll_cons_of_miss (N : Nat) (w : World) (c : Coord) (cs : List Coord)
    (hmiss : mapGet w.Chunks (c.1, c.2) = none) (hroom : w.genQueue.length < GenQueueCap) :
    getAll N w (c :: cs) =
      match getAll N (evictOldChunks N (afterInsert w (c.1, c.2))) cs with
      | some r2 => some (r2.1,
          (w.cacheQueue ++ [(c.1, c.2)]).take ((w.cacheQueue ++ [(c.1, c.2)]).length - N) ++ r2.2)
      | none => none := by
  simp only [getAll, GetChunk_miss N w c.1 c.2 hmiss hroom,
    GetChunkEvicted_miss N w c.1 c.2 hmiss hroom]

theorem getAll_cons_of_waits (N : Nat) (w : World) (c : Coord) (cs : List Coord)
    (hmiss : mapGet w.Chunks (c.1, c.2) = none) (hfull : GenQueueCap ≤ w.genQueue.length) :
    getAll N w (c :: cs) = none := by
  simp only [getAll, GetChunk_waits N w c.1 c.2 hmiss hfull]

theorem getAll_distinct_aux (N : Nat) (cs : List Coord) :
    ∀ (w : World) (q : List Coord), w.cacheQueue = q → q.length ≤ N →
      (∀ c, mapGet w.Chunks c = if c ∈ q then some placeholder else none) →
      (q ++ cs).Nodup → w.genQueue.length ≤ GenQueueCap →
      (w.genQueue.length + cs.length ≤ GenQueueCap →
        ∃ w1 ev, getAll N w cs = some (w1, ev) ∧
          w1.cacheQueue = (q ++ cs).drop ((q ++ cs).length - N) ∧
          ev = (q ++ cs).take ((q ++ cs).length - N) ∧
          (∀ c, mapGet w1.Chunks c =
            if c ∈ (q ++ cs).drop ((q ++ cs).length - N) then some placeholder else none) ∧
          w1.genQueue = w.genQueue ++ cs) ∧
      (GenQueueCap < w.genQueue.length + cs.length → getAll N w cs = none) := by
  induction cs with
  | nil =>
    intro w q hq hlen hmap _ hg
    have h0 : q.length - N = 0 := by omega
    refine ⟨fun _ => ⟨w, [], by simp [getAll], ?_, ?_, ?_, ?_⟩, ?_⟩
    · simp [hq, h0]
    · simp [h0]
    · intro c
      simp [h0, hmap]
    · simp
    · intro h
      simp only [List.length_nil, Nat.add_zero] at h
      omega
  | cons c cs ih =>
    intro w q hq hlen hmap hnd hg
    have hcq : c ∉ q := by
      intro hc
      exact (List.nodup_append.mp hnd).2.2 hc (by simp)
    have hmiss : mapGet w.Chunks (c.1, c.2) = none := by
      have := hmap c
      simpa [hcq] using this
    by_cases hroom : w.genQueue.length < GenQueueCap
    · have hX : (q ++ [c]).Nodup := by
        have h1 : (q ++ [c] ++ cs).Nodup := by simpa using hnd
        exact (List.nodup_append.mp h1).1
      obtain ⟨hw1q, hw1g, hw1m⟩ := fresh_miss_world N w q c hq hmap hX
      have hk : (q ++ [c]).length - N ≤ (q ++ [c]).length := Nat.sub_le _ _
      have hY : q ++ c :: cs = q ++ [c] ++ cs := by simp
      have hdropY : (q ++ [c]).drop ((q ++ [c]).length - N) ++ cs =
          (q ++ c :: cs).drop ((q ++ [c]).length - N) := by
        rw [hY, List.drop_append_of_le_length hk]
      have htakeY : (q ++ [c]).take ((q ++ [c]).length - N) =
          (q ++ c :: cs).take ((q ++ [c]).length - N) := by
        rw [hY, List.take_append_of_le_length hk]
      have hnd1 : ((q ++ [c]).drop ((q ++ [c]).length - N) ++ cs).Nodup := by
        rw [hdropY]
        exact (List.drop_sublist _ _).nodup hnd
      have hlen1 : ((q ++ [c]).drop ((q ++ [c]).length - N)).length ≤ N := by
        simp only [List.length_drop]
        omega
      have hg1 : (evictOldChunks N (afterInsert w (c.1, c.2))).genQueue.length ≤ GenQueueCap := by
        rw [hw1g]
        simp only [List.length_append, List.length_singleton]
        omega
      obtain ⟨ihA, ihB⟩ := ih (evictOldChunks N (afterInsert w (c.1, c.2)))
        ((q ++ [c]).drop ((q ++ [c]).length - N)) hw1q hlen1 hw1m hnd1 hg1
      have hcons := getAll_cons_of_miss N w c cs hmiss hroom
      refine ⟨?_, ?_⟩
      · intro hb
        obtain ⟨w2, ev2, hga, i1, i2, i3, i4⟩ := ihA (by
          rw [hw1g]
          simp only [List.length_append, List.length_singleton, List.length_cons, List.length_nil] at hb ⊢
          omega)
        rw [hdropY] at i1 i2 i3
        rw [List.drop_drop] at i1 i3
        have hidx : ((q ++ [c]).length - N +
            (((q ++ c :: cs).drop ((q ++ [c]).length - N)).length - N)) =
            (q ++ c :: cs).length - N := by
          simp only [List.length_drop, List.length_append, List.length_cons, List.length_nil]
          omega
        refine ⟨w2, (q ++ [c]).take ((q ++ [c]).length - N) ++ ev2, ?_, ?_, ?_, ?_, ?_⟩
        · rw [hcons, hga, hq]
        · rw [i1, hidx]
        · rw [i2, htakeY]
          have := List.take_add (q ++ c :: cs) ((q ++ [c]).length - N)
            (((q ++ c :: cs).drop ((q ++ [c]).length - N)).length - N)
          rw [← this, hidx]
        · intro x
          rw [i3 x, hidx]
        · rw [i4, hw1g]
          simp
      · intro hb
        have hnone := ihB (by
          rw [hw1g]
          simp only [List.length_append, List.length_singleton, List.length_cons, List.length_nil] at hb ⊢
          omega)
        rw [hcons, hnone]
    · refine ⟨?_, ?_⟩
      · intro hb
        simp only [List.length_cons] at hb
        omega
      · intro _
        exact getAll_cons_of_waits N w c cs hmiss (by omega)

theorem getAll_eq_runFrom (maxChunks : Nat) (cs : List Coord) :
    ∀ (w w1 : World) (ev : List Coord), getAll maxChunks w cs = some (w1, ev) →
      runFrom maxChunks w (cs.map (fun c => Step.getChunk c.1 c.2)) = some w1 := by
  induction cs with
  | nil =>
    intro w w1 ev h
    simp only [getAll, Option.some.injEq, Prod.mk.injEq] at h
    simp [runFrom, h.1]
  | cons c cs ih =>
    intro w w1 ev h
    simp only [getAll] at h
    cases hG : GetChunk maxChunks w c.1 c.2 with
    | none => simp [hG] at h
    | some r =>
      cases hE : GetChunkEvicted maxChunks w c.1 c.2 with
      | none => simp [hG, hE] at h
      | some e =>
        simp only [hG, hE] at h
        cases hA : getAll maxChunks r.1 cs with
        | none => simp [hA] at h
        | some r2 =>
          simp only [hA, Option.some.injEq, Prod.mk.injEq] at h
          have h2 := ih r.1 r2.1 r2.2 (by rw [hA])
          simp only [List.map_cons, runFrom, step, hG]
          rw [h2, h.1]

/-- Calls on new coordinates fill the channel: in an execution without install steps whose
`GetChunk` calls are on pairwise distinct coordinates, none of them a key at the start,
every call sends, so the keys in the channel at the end plus the keys received are the
keys in the channel at the start plus the calls. -/
theorem calls_fill_channel (maxChunks : Nat) (steps : List Step) :
    ∀ (w w1 : World), runFrom maxChunks w steps = some w1 → noInstall steps = true →
      (callCoords steps).Nodup → (∀ c, c ∈ callCoords steps → mapGet w.Chunks c = none) →
      w.genQueue.length ≤ GenQueueCap →
      w1.genQueue.length + receiveCount steps = w.genQueue.length + (callCoords steps).length ∧
      w1.genQueue.length ≤ GenQueueCap := by
  induction steps with
  | nil =>
    intro w w1 hr _ _ _ hg
    simp only [runFrom, Option.some.injEq] at hr
    subst hr
    simp [receiveCount, callCoords, hg]
  | cons s rest ih =>
    intro w w1 hr hni hnd habs hg
    simp only [runFrom] at hr
    cases hs : step maxChunks w s with
    | none => simp [hs] at hr
    | some w2 =>
      simp only [hs] at hr
      cases s with
      | getChunk cx cy =>
        simp only [callCoords, List.nodup_cons] at hnd
        have hmiss : mapGet w.Chunks (cx, cy) = none := habs (cx, cy) (by simp [callCoords])
        by_cases hroom : w.genQueue.length < GenQueueCap
        · simp only [step, GetChunk_miss maxChunks w cx cy hmiss hroom, Option.some.injEq] at hs
          subst hs
          have hgen : (evictOldChunks maxChunks (afterInsert w (cx, cy))).genQueue.length =
              w.genQueue.length + 1 := by
            rw [evictOldChunks_genQueue]
            simp [afterInsert]
          have habs2 : ∀ c, c ∈ callCoords rest →
              mapGet (evictOldChunks maxChunks (afterInsert w (cx, cy))).Chunks c = none := by
            intro c hc
            rw [evictOldChunks_mapGet]
            by_cases h1 : c ∈ (afterInsert w (cx, cy)).cacheQueue.take
                ((afterInsert w (cx, cy)).cacheQueue.length - maxChunks)
            · rw [if_pos h1]
            · rw [if_neg h1]
              have hne : ¬ (cx, cy) = c := fun e => hnd.1 (e ▸ hc)
              simp only [afterInsert, mapGet_mapSet, hne, if_false]
              exact habs c (by simp [callCoords, hc])
          obtain ⟨i1, i2⟩ := ih _ w1 hr (by simpa [noInstall] using hni) hnd.2 habs2
            (by rw [hgen]; omega)
          refine ⟨?_, i2⟩
          simp only [receiveCount, callCoords, List.length_cons]
          omega
        · simp [step, GetChunk_waits maxChunks w cx cy hmiss (by omega)] at hs
      | install cx cy => simp [noInstall] at hni
      | receive =>
        simp only [step] at hs
        cases hq : w.genQueue with
        | nil => simp [receiveKey, hq] at hs
        | cons c0 q0 =>
          simp only [receiveKey, hq, Option.some.injEq] at hs
          subst hs
          obtain ⟨i1, i2⟩ := ih _ w1 hr (by simpa [noInstall] using hni)
            (by simpa [callCoords] using hnd)
            (fun c hc => habs c (by simpa [callCoords] using hc))
            (by simp only; rw [hq] at hg; simp only [List.length_cons] at hg; omega)
          refine ⟨?_, i2⟩
          simp only [receiveCount, callCoords, hq, List.length_cons] at i1 ⊢
          omega

/-- From the empty world, with no install and no more receives than there are workers,
`GetChunk` calls on pairwise distinct coordinates return at most
`GenQueueCap + ChunkWorkers = 104` times. -/
theorem calls_bounded_by_buffer (maxChunks : Nat) (steps : List Step) (w1 : World)
    (hr : run maxChunks steps = some w1) (hni : noInstall steps = true)
    (hnd : (callCoords steps).Nodup) (hrecv : receiveCount steps ≤ ChunkWorkers) :
    (callCoords steps).length ≤ GenQueueCap + ChunkWorkers := by
  obtain ⟨h1, h2⟩ := calls_fill_channel maxChunks steps NewWorld w1 hr hni hnd
    (by intro c _; simp [NewWorld, mapGet]) (by simp [NewWorld])
  simp only [NewWorld, List.length_nil, Nat.zero_add] at h1
  omega

set_option maxRecDepth 100000 in
/-- C6 fails on the code for long lists.  With `MaxChunks = 50` and the 101 distinct
coordinates `(0,0), ..., (100,0)`, called in order from the empty world with no worker step
in between: the first 100 calls return, the 101st does not (the channel holds 100 keys and
its send waits), so the final state of the claim is never reached.  If each of the four
workers receives a key (none installs), 104 calls return and the 105th does not; no order
of the receives does better (`calls_bounded_by_buffer`). -/
theorem c6_getChunk_distinct_waits :
    (coordsRange 0 101).Nodup ∧ MaxChunks < (coordsRange 0 101).length ∧ 1 ≤ MaxChunks ∧
    (getAll MaxChunks NewWorld (coordsRange 0 100)).isSome = true ∧
    (getAll MaxChunks NewWorld (coordsRange 0 101)).isNone = true ∧
    (run MaxChunks (getsRange 0 4 ++ List.replicate ChunkWorkers Step.receive ++
      getsRange 4 100)).isSome = true ∧
    (run MaxChunks (getsRange 0 4 ++ List.replicate ChunkWorkers Step.receive ++
      getsRange 4 101)).isNone = true := by
  decide

/-- C6 as amended.  Strict LRU order for distinct accesses within the buffer of the channel.
For every capacity `N` and every list `cs` of `m > N` pairwise distinct coordinates, `GetChunk`
is called on them in order from the empty world with no worker step in between (`getAll`,
which is `run` on these calls).  If `m ≤ GenQueueCap = 100`, all calls return and leave the
list equal to the last `N` coordinates in access order, the map with exactly these `N` keys
(each once, each holding the placeholder), and the keys deleted on the way are exactly the
first `m - N` coordinates, in access order.  If `m > 100`, the calls do not all return.
(`N ≥ 1` is not needed.) -/
theorem c6_getChunk_distinct_lru (N : Nat) (cs : List Coord) (hnd : cs.Nodup)
    (hm : N < cs.length) :
    (cs.length ≤ GenQueueCap →
      ∃ w1 ev, getAll N NewWorld cs = some (w1, ev) ∧
        run N (cs.map (fun c => Step.getChunk c.1 c.2)) = some w1 ∧
        w1.cacheQueue = cs.drop (cs.length - N) ∧
        w1.cacheQueue.length = N ∧
        (∀ c, c ∈ mapKeys w1.Chunks ↔ c ∈ cs.drop (cs.length - N)) ∧
        (mapKeys w1.Chunks).Nodup ∧
        (mapKeys w1.Chunks).length = N ∧
        (∀ c, c ∈ cs.drop (cs.length - N) → mapGet w1.Chunks c = some placeholder) ∧
        ev = cs.take (cs.length - N) ∧
        ev.length = cs.length - N) ∧
    (GenQueueCap < cs.length → getAll N NewWorld cs = none) := by
  obtain ⟨hA, hB⟩ := getAll_distinct_aux N cs NewWorld [] rfl (Nat.zero_le _)
    (by intro c; simp [NewWorld, mapGet]) (by simpa using hnd) (by simp [NewWorld])
  refine ⟨?_, fun hb => hB (by simpa [NewWorld] using hb)⟩
  intro hb
  obtain ⟨w1, ev, hga, h1, h2, h3, -⟩ := hA (by simpa [NewWorld] using hb)
  simp only [List.nil_append] at h1 h2 h3
  have hrun : run N (cs.map (fun c => Step.getChunk c.1 c.2)) = some w1 :=
    getAll_eq_runFrom N cs NewWorld w1 ev hga
  have hinv : Inv N w1 := inv_run N _ w1 hrun
  have hkeys : ∀ c, c ∈ mapKeys w1.Chunks ↔ c ∈ cs.drop (cs.length - N) := by
    intro c
    rw [mem_mapKeys_iff, h3 c]
    by_cases hc : c ∈ cs.drop (cs.length - N)
    · simp [hc]
    · simp [hc]
  have hdnd : (cs.drop (cs.length - N)).Nodup := (List.drop_sublist _ _).nodup hnd
  have hperm : (mapKeys w1.Chunks).Perm (cs.drop (cs.length - N)) :=
    (List.perm_ext_iff_of_nodup hinv.2.2 hdnd).mpr hkeys
  refine ⟨w1, ev, hga, hrun, h1, ?_, hkeys, hinv.2.2, ?_, ?_, h2, ?_⟩
  · rw [h1, List.length_drop]
    omega
  · rw [hperm.length_eq, List.length_drop]
    omega
  · intro c hc
    rw [h3 c, if_pos hc]
  · rw [h2, List.length_take]
    omega

/-- Witness of the amended C6, the scenario of the specification: capacity 3 and the
accesses `(0,0), (1,0), (2,0), (3,0)` end with `(1,0), (2,0), (3,0)` resident, in this
order in the list, and `(0,0)` evicted. -/
theorem c6_getChunk_distinct_lru_witness :
    ([(0, 0), (1, 0), (2, 0), (3, 0)] : List Coord).Nodup ∧
    3 < ([(0, 0), (1, 0), (2, 0), (3, 0)] : List Coord).length ∧
    ([(0, 0), (1, 0), (2, 0), (3, 0)] : List Coord).length ≤ GenQueueCap ∧
    ∃ w1, getAll 3 NewWorld [(0, 0), (1, 0), (2, 0), (3, 0)] = some (w1, [(0, 0)]) ∧
      w1.cacheQueue = [(1, 0), (2, 0), (3, 0)] ∧
      (∀ c, c ∈ mapKeys w1.Chunks ↔ c ∈ [((1 : Int), (0 : Int)), (2, 0), (3, 0)]) := by
  have hnd : ([(0, 0), (1, 0), (2, 0), (3, 0)] : List Coord).Nodup := by decide
  have hm : 3 < ([(0, 0), (1, 0), (2, 0), (3, 0)] : List Coord).length := by decide
  have hb : ([(0, 0), (1, 0), (2, 0), (3, 0)] : List Coord).length ≤ GenQueueCap := by decide
  obtain ⟨w1, ev, hga, -, h1, -, h2, -, -, -, h3, -⟩ :=
    (c6_getChunk_distinct_lru 3 [(0, 0), (1, 0), (2, 0), (3, 0)] hnd hm).1 hb
  have hev : ev = [(0, 0)] := by rw [h3]; decide
  subst hev
  exact ⟨hnd, hm, hb, w1, hga, h1, h2⟩

/-! ## C2, C3, C5: one entry too many in the list

The worker pushes the key of the chunk it installs to the back of `cacheQueue` although
`GetChunk` has pushed the same key when it stored the placeholder.  The list then holds
two entries for one key of the map, and the eviction of the older entry deletes the key
from the map while the younger entry stays. -/

/-- The half of the consistency invariant that holds: in every reachable world each key of
the map occurs in the list. -/
theorem keys_subset_cacheQueue (maxChunks : Nat) (steps : List Step) (w : World) (c : Coord)
    (hrun : run maxChunks steps = some w) (h : c ∈ mapKeys w.Chunks) : c ∈ w.cacheQueue :=
  (inv_run maxChunks steps w hrun).2.1 c h

/-- After a `GetChunk` miss the worker that receives the key and installs its chunk leaves
two entries of the key in the list, for any capacity of at least 2. -/
theorem install_duplicates_entry (maxChunks : Nat) (cx cy : Int) (h : 2 ≤ maxChunks) :
    (run maxChunks [Step.getChunk cx cy, Step.receive, Step.install cx cy]).map
      (fun w => w.cacheQueue) = some [(cx, cy), (cx, cy)] := by
  have hG := GetChunk_miss maxChunks NewWorld cx cy (by simp [NewWorld, mapGet])
    (by simp [NewWorld, GenQueueCap])
  have hno : evictOldChunks maxChunks (afterInsert NewWorld (cx, cy)) =
      afterInsert NewWorld (cx, cy) :=
    evictOldChunks_of_le _ _ (by simp [afterInsert, NewWorld]; omega)
  have h1 : step maxChunks NewWorld (Step.getChunk cx cy) =
      some (afterInsert NewWorld (cx, cy)) := by
    simp only [step, hG, hno]
  have h2 : step maxChunks (afterInsert NewWorld (cx, cy)) Step.receive =
      some { Chunks := mapSet [] (cx, cy) placeholder, cacheQueue := [(cx, cy)],
             genQueue := [] } := by
    simp [step, receiveKey, afterInsert, NewWorld]
  have h3 : chunkWorkerBody maxChunks
      { Chunks := mapSet [] (cx, cy) placeholder, cacheQueue := [(cx, cy)], genQueue := [] }
      (cx, cy) =
      { Chunks := mapSet (mapSet [] (cx, cy) placeholder) (cx, cy) (GenerateChunk cx cy),
        cacheQueue := [(cx, cy), (cx, cy)], genQueue := [] } := by
    unfold chunkWorkerBody
    rw [evictOldChunks_of_le _ _ (by simp; omega)]
    simp
  have h4 : step maxChunks
      { Chunks := mapSet [] (cx, cy) placeholder, cacheQueue := [(cx, cy)], genQueue := [] }
      (Step.install cx cy) =
      some { Chunks := mapSet (mapSet [] (cx, cy) placeholder) (cx, cy) (GenerateChunk cx cy),
             cacheQueue := [(cx, cy), (cx, cy)], genQueue := [] } := by
    simp only [step, h3]
  rw [run, runFrom_cons_of_step maxChunks _ _ _ _ h1, runFrom_cons_of_step maxChunks _ _ _ _ h2,
    runFrom_cons_of_step maxChunks _ _ _ _ h4]
  simp [runFrom]

set_option maxRecDepth 100000 in
/-- C2, evaluated with `MaxChunks = 50` on the run `GetChunk(0,0)`, a worker receives the
key (it is `(0,0)`) and installs its chunk, `GetChunk(1,0)`, ..., `GetChunk(49,0)`: the run
is an execution, the list holds 50 entries and starts with `(0,0)`, but `(0,0)` is no key
of the map, which has 49 keys.  The set of the keys is not the set of the coordinates of
the list. -/
theorem c2_lru_entry_without_key :
    (run MaxChunks [Step.getChunk 0 0]).map
      (fun w => (receiveKey w).map Prod.fst) = some (some (0, 0)) ∧
    (run MaxChunks ([Step.getChunk 0 0, Step.receive, Step.install 0 0] ++ getsRange 1 49)).map
      (fun w => w.cacheQueue.head?) = some (some (0, 0)) ∧
    (run MaxChunks ([Step.getChunk 0 0, Step.receive, Step.install 0 0] ++ getsRange 1 49)).map
      (fun w => w.cacheQueue.length) = some 50 ∧
    (run MaxChunks ([Step.getChunk 0 0, Step.receive, Step.install 0 0] ++ getsRange 1 49)).map
      (fun w => decide ((0, 0) ∈ w.cacheQueue)) = some true ∧
    (run MaxChunks ([Step.getChunk 0 0, Step.receive, Step.install 0 0] ++ getsRange 1 49)).map
      (fun w => decide ((0, 0) ∈ mapKeys w.Chunks)) = some false ∧
    (run MaxChunks ([Step.getChunk 0 0, Step.receive, Step.install 0 0] ++ getsRange 1 49)).map
      (fun w => (mapKeys w.Chunks).length) = some 49 := by
  decide

set_option maxRecDepth 100000 in
/-- C3, evaluated with `MaxChunks = 50` in the world reached by `GetChunk(0,0)`, a worker
receives `(0,0)` and installs its chunk, `GetChunk(1,0)`, ..., `GetChunk(49,0)`: `(0,0)` is
no key of the map and the channel holds 49 keys, so the call `GetChunk(0,0)` returns; it
returns nil, `(0,0)` is no key of the map after the call, and the key has been sent to the
channel all the same.  The eviction check of the call removed the older entry of `(0,0)`
from the front of the list and with it the placeholder just stored. -/
theorem c3_getChunk_miss_returns_nil :
    (run MaxChunks ([Step.getChunk 0 0, Step.receive, Step.install 0 0] ++ getsRange 1 49)).map
      (fun w => mapGet w.Chunks (0, 0)) = some none ∧
    (run MaxChunks ([Step.getChunk 0 0, Step.receive, Step.install 0 0] ++ getsRange 1 49)).map
      (fun w => w.genQueue.length) = some 49 ∧
    (run MaxChunks ([Step.getChunk 0 0, Step.receive, Step.install 0 0] ++ getsRange 1 49)).map
      (fun w => (GetChunk MaxChunks w 0 0).map Prod.snd) = some (some none) ∧
    (run MaxChunks ([Step.getChunk 0 0, Step.receive, Step.install 0 0] ++ getsRange 1 49)).map
      (fun w => (GetChunk MaxChunks w 0 0).map (fun r => mapGet r.1.Chunks (0, 0))) =
        some (some none) ∧
    (run MaxChunks ([Step.getChunk 0 0, Step.receive, Step.install 0 0] ++ getsRange 1 49)).map
      (fun w => GetChunkEvicted MaxChunks w 0 0) = some (some [(0, 0)]) ∧
    (run MaxChunks ([Step.getChunk 0 0, Step.receive, Step.install 0 0] ++ getsRange 1 49)).map
      (fun w => (GetChunk MaxChunks w 0 0).map
        (fun r => decide (r.1.genQueue = w.genQueue ++ [(0, 0)]))) = some (some true) := by
  decide

set_option maxRecDepth 100000 in
/-- C5, evaluated with `MaxChunks = 50` in the world reached by `GetChunk(0,0)`, ...,
`GetChunk(49,0)`: no key has been evicted, `(0,0)` holds its placeholder (`Ready = false`)
and is the head of the channel; the worker install of `(0,0)` stores the generated chunk,
pushes a second entry and its own eviction check then removes the first entry of `(0,0)`,
deleting the chunk just stored: after the step `(0,0)` is no key of the map.  The same
holds of the whole iteration of `chunkWorker` that receives `(0,0)` from the channel. -/
theorem c5_install_evicts_own_chunk :
    (run MaxChunks (getsRange 0 50)).map (fun w => (mapKeys w.Chunks).length) = some 50 ∧
    (run MaxChunks (getsRange 0 50)).map
      (fun w => (mapGet w.Chunks (0, 0)).map Chunk.Ready) = some (some false) ∧
    (run MaxChunks (getsRange 0 50)).map (fun w => w.genQueue.head?) = some (some (0, 0)) ∧
    (run MaxChunks (getsRange 0 50)).map
      (fun w => mapGet (chunkWorkerBody MaxChunks w (0, 0)).Chunks (0, 0)) = some none ∧
    (run MaxChunks (getsRange 0 50)).map
      (fun w => (chunkWorker MaxChunks w).map (fun w2 => mapGet w2.Chunks (0, 0))) =
        some (some none) ∧
    (run MaxChunks (getsRange 0 50 ++ [Step.receive, Step.install 0 0])).map
      (fun w => mapGet w.Chunks (0, 0)) = some none ∧
    (run MaxChunks (getsRange 0 50)).map
      (fun w => (evictOldChunksTrace MaxChunks
        { w with Chunks := mapSet w.Chunks (0, 0) (GenerateChunk 0 0),
                 cacheQueue := w.cacheQueue ++ [(0, 0)] }).2) = some [(0, 0)] := by
  decide

/-- Where the miss path of `GetChunk` does what is expected of it: if the key has no entry
in the list, the capacity is at least 1 and the channel has room, the call returns the
placeholder, the key holds it in the map, the key is the last entry of the list, and the
eviction check of the call does not delete the key. -/
theorem GetChunk_miss_without_stale_entry (maxChunks : Nat) (w : World) (cx cy : Int)
    (hcap : 1 ≤ maxChunks) (hroom : w.genQueue.length < GenQueueCap)
    (habs : mapGet w.Chunks (cx, cy) = none) (hq : (cx, cy) ∉ w.cacheQueue) :
    ∃ w1 ev, GetChunk maxChunks w cx cy = some (w1, some placeholder) ∧
      GetChunkEvicted maxChunks w cx cy = some ev ∧
      mapGet w1.Chunks (cx, cy) = some placeholder ∧
      w1.cacheQueue.getLast? = some (cx, cy) ∧
      (cx, cy) ∉ ev := by
  have hk : w.cacheQueue.length + 1 - maxChunks ≤ w.cacheQueue.length := by omega
  have hnot : (cx, cy) ∉ (w.cacheQueue ++ [(cx, cy)]).take
      ((w.cacheQueue ++ [(cx, cy)]).length - maxChunks) := by
    simp only [List.length_append, List.length_singleton]
    rw [List.take_append_of_le_length hk]
    exact fun h => hq (List.mem_of_mem_take h)
  have hiq : (afterInsert w (cx, cy)).cacheQueue = w.cacheQueue ++ [(cx, cy)] := rfl
  have hget : mapGet (evictOldChunks maxChunks (afterInsert w (cx, cy))).Chunks (cx, cy) =
      some placeholder := by
    rw [evictOldChunks_mapGet, hiq, if_neg hnot]
    simp [afterInsert, mapGet_mapSet]
  refine ⟨_, _, ?_, GetChunkEvicted_miss maxChunks w cx cy habs hroom, hget, ?_, hnot⟩
  · rw [GetChunk_miss maxChunks w cx cy habs hroom, hget]
  · rw [evictOldChunks_eq]
    simp only [hiq, List.length_append, List.length_singleton]
    rw [List.drop_append_of_le_length hk]
    simp

/-- Where the worker install does what is expected of it: if the list is below the
capacity, nothing is evicted and the key holds the generated chunk afterwards. -/
theorem chunkWorkerBody_below_capacity (maxChunks : Nat) (w : World) (c : Coord)
    (hlen : w.cacheQueue.length < maxChunks) :
    mapGet (chunkWorkerBody maxChunks w c).Chunks c = some (GenerateChunk c.1 c.2) ∧
    (chunkWorkerBody maxChunks w c).cacheQueue = w.cacheQueue ++ [c] := by
  have hbody : chunkWorkerBody maxChunks w c =
      evictOldChunks maxChunks
        { Chunks := mapSet w.Chunks c (GenerateChunk c.1 c.2),
          cacheQueue := w.cacheQueue ++ [c],
          genQueue := w.genQueue } := rfl
  rw [hbody, evictOldChunks_of_le _ _ (by simp; omega)]
  simp [mapGet_mapSet]

/-! ## C4: the worker installs whatever the map holds -/

set_option maxRecDepth 100000 in
/-- C4 fails on the code.  With `MaxChunks = 50`, after `GetChunk(0,0)`, ..., `GetChunk(50,0)`
the key `(0,0)` has been evicted (it is no key of the map and not in the list) while it
is still the head of the channel.  The worker install of `(0,0)` does not discard its
result: after it `(0,0)` is a key again, holding a ready chunk, the list has changed (it
ends in `(0,0)` and has lost `(1,0)`, whose placeholder is deleted), and the next
`GetChunk(0,0)` returns a chunk (a hit) and sends nothing. -/
theorem c4_install_after_eviction_reinserts :
    (run MaxChunks (getsRange 0 51)).map (fun w => mapGet w.Chunks (0, 0)) = some none ∧
    (run MaxChunks (getsRange 0 51)).map (fun w => decide ((0, 0) ∈ w.cacheQueue)) =
      some false ∧
    (run MaxChunks (getsRange 0 51)).map (fun w => w.genQueue.head?) = some (some (0, 0)) ∧
    (run MaxChunks (getsRange 0 51)).map
      (fun w => (mapGet (chunkWorkerBody MaxChunks w (0, 0)).Chunks (0, 0)).map Chunk.Ready) =
        some (some true) ∧
    (run MaxChunks (getsRange 0 51)).map
      (fun w => decide ((chunkWorkerBody MaxChunks w (0, 0)).cacheQueue = w.cacheQueue)) =
        some false ∧
    (run MaxChunks (getsRange 0 51)).map
      (fun w => (chunkWorkerBody MaxChunks w (0, 0)).cacheQueue.getLast?) =
        some (some (0, 0)) ∧
    (run MaxChunks (getsRange 0 51)).map (fun w => (mapGet w.Chunks (1, 0)).isSome) =
      some true ∧
    (run MaxChunks (getsRange 0 51)).map
      (fun w => mapGet (chunkWorkerBody MaxChunks w (0, 0)).Chunks (1, 0)) = some none ∧
    (run MaxChunks (getsRange 0 51)).map
      (fun w => (GetChunk MaxChunks (chunkWorkerBody MaxChunks w (0, 0)) 0 0).map
        (fun r => (r.2.map Chunk.Ready, decide (r.1.genQueue = w.genQueue)))) =
        some (some (some true, true)) ∧
    (run MaxChunks (getsRange 0 51 ++ [Step.receive, Step.install 0 0])).map
      (fun w => (mapGet w.Chunks (0, 0)).map Chunk.Ready) = some (some true) := by
  decide

/-- C4 as amended.  In every reachable world, for a capacity of at least 1 and every
coordinate `c` that has no entry in the list (it was evicted after being sent; it is then
no key of the map either), the worker install step stores `GenerateChunk(c)`, a ready chunk,
under `c`, pushes `c` to the back of the list and runs the eviction check (the list becomes
the former list followed by `c`, cut from the front down to `maxChunks` entries); the
channel is untouched, and the next `GetChunk(c)` is a hit that returns this chunk and sends
nothing. -/
theorem c4_install_absent_installs (maxChunks : Nat) (steps : List Step) (w : World)
    (c : Coord) (hcap : 1 ≤ maxChunks) (hrun : run maxChunks steps = some w)
    (hq : c ∉ w.cacheQueue) :
    mapGet w.Chunks c = none ∧
    mapGet (chunkWorkerBody maxChunks w c).Chunks c = some (GenerateChunk c.1 c.2) ∧
    (GenerateChunk c.1 c.2).Ready = true ∧
    (chunkWorkerBody maxChunks w c).cacheQueue =
      (w.cacheQueue ++ [c]).drop (w.cacheQueue.length + 1 - maxChunks) ∧
    (chunkWorkerBody maxChunks w c).cacheQueue.getLast? = some c ∧
    (chunkWorkerBody maxChunks w c).genQueue = w.genQueue ∧
    (∃ w1, GetChunk maxChunks (chunkWorkerBody maxChunks w c) c.1 c.2 =
        some (w1, some (GenerateChunk c.1 c.2)) ∧
      w1.genQueue = w.genQueue) := by
  have hinv := inv_run maxChunks steps w hrun
  have hlen : w.cacheQueue.length ≤ maxChunks := hinv.1
  have habs : mapGet w.Chunks c = none := by
    by_contra hne
    exact hq (hinv.2.1 c ((mem_mapKeys_iff _ _).mpr hne))
  have hk : w.cacheQueue.length + 1 - maxChunks ≤ w.cacheQueue.length := by omega
  have hbody : chunkWorkerBody maxChunks w c =
      evictOldChunks maxChunks
        { Chunks := mapSet w.Chunks c (GenerateChunk c.1 c.2),
          cacheQueue := w.cacheQueue ++ [c],
          genQueue := w.genQueue } := rfl
  have hget : mapGet (chunkWorkerBody maxChunks w c).Chunks c =
      some (GenerateChunk c.1 c.2) := by
    rw [hbody, evictOldChunks_mapGet]
    have hnot : c ∉ (w.cacheQueue ++ [c]).take ((w.cacheQueue ++ [c]).length - maxChunks) := by
      simp only [List.length_append, List.length_singleton]
      rw [List.take_append_of_le_length hk]
      exact fun h => hq (List.mem_of_mem_take h)
    rw [if_neg hnot, mapGet_mapSet]
    simp
  have hqueue : (chunkWorkerBody maxChunks w c).cacheQueue =
      (w.cacheQueue ++ [c]).drop (w.cacheQueue.length + 1 - maxChunks) := by
    rw [hbody, evictOldChunks_eq]
    simp
  have hgen : (chunkWorkerBody maxChunks w c).genQueue = w.genQueue := by
    rw [hbody, evictOldChunks_genQueue]
  have hhit := GetChunk_hit maxChunks (chunkWorkerBody maxChunks w c)
    c.1 c.2 (GenerateChunk c.1 c.2) hget
  refine ⟨habs, hget, rfl, hqueue, ?_, hgen, ⟨_, hhit, ?_⟩⟩
  · rw [hqueue, List.drop_append_of_le_length hk]
    simp
  · simpa [moveToBack] using hgen

set_option maxRecDepth 100000 in
/-- Witness of the amended C4 with `MaxChunks = 50`: the world after `GetChunk(0,0)`, ...,
`GetChunk(50,0)` and the evicted coordinate `(0,0)`. -/
theorem c4_install_absent_installs_witness :
    ∃ w, 1 ≤ MaxChunks ∧ run MaxChunks (getsRange 0 51) = some w ∧ (0, 0) ∉ w.cacheQueue ∧
      mapGet w.Chunks (0, 0) = none ∧
      mapGet (chunkWorkerBody MaxChunks w (0, 0)).Chunks (0, 0) = some (GenerateChunk 0 0) ∧
      (∃ w1, GetChunk MaxChunks (chunkWorkerBody MaxChunks w (0, 0)) 0 0 =
        some (w1, some (GenerateChunk 0 0)) ∧ w1.genQueue = w.genQueue) := by
  have hcap : 1 ≤ MaxChunks := by decide
  have hs : (run MaxChunks (getsRange 0 51)).isSome = true := by decide
  obtain ⟨w, hw⟩ := Option.isSome_iff_exists.mp hs
  have hq : (0, 0) ∉ w.cacheQueue := by
    have h1 : (run MaxChunks (getsRange 0 51)).map (fun w => decide ((0, 0) ∈ w.cacheQueue)) =
        some false := by decide
    rw [hw] at h1
    simpa using h1
  have h := c4_install_absent_installs MaxChunks (getsRange 0 51) w (0, 0) hcap hw hq
  exact ⟨w, hcap, hw, hq, h.1, h.2.1, h.2.2.2.2.2.2⟩

/-! ## C10: several threads in GetChunk for one absent key -/

theorem set_eq_self_of_getElem? {α : Type} (l : List α) (t : Nat) (a : α)
    (h : l[t]? = some a) : l.set t a = l := by
  induction l generalizing t with
  | nil => simp
  | cons x xs ih =>
    cases t with
    | zero =>
      simp at h
      simp [h]
    | succ t =>
      simp at h
      simp [ih t h]

theorem any_waiting_set (pcs : List Pc) (t : Nat) (pc : Pc)
    (h : pcs.any Pc.waiting = false) (hpc : Pc.waiting pc = false) :
    (pcs.set t pc).any Pc.waiting = false := by
  rw [List.any_eq_false] at h ⊢
  intro x hx
  rcases List.mem_or_eq_of_mem_set hx with h1 | h1
  · exact h x h1
  · rw [h1, hpc]
    simp

/-- Two critical sections of one thread, run back to back, are one call of `GetChunk`: the
thread has returned exactly when the call returns, with the same world and the same
pointer; otherwise it waits at the send. -/
theorem threadStep_twice (maxChunks : Nat) (key : Coord) (w : World) :
    (∀ r, GetChunk maxChunks w key.1 key.2 = some r →
      (threadStep maxChunks key (threadStep maxChunks key w Pc.atLookup).1
          (threadStep maxChunks key w Pc.atLookup).2).1 = r.1 ∧
      ((threadStep maxChunks key (threadStep maxChunks key w Pc.atLookup).1
          (threadStep maxChunks key w Pc.atLookup).2).2 =
          Pc.returnedHit (r.2.getD placeholder) ∨
        (threadStep maxChunks key (threadStep maxChunks key w Pc.atLookup).1
          (threadStep maxChunks key w Pc.atLookup).2).2 = Pc.returnedMiss r.2)) ∧
    (GetChunk maxChunks w key.1 key.2 = none →
      (threadStep maxChunks key (threadStep maxChunks key w Pc.atLookup).1
          (threadStep maxChunks key w Pc.atLookup).2).2 = Pc.waitingAtSend) := by
  cases hget : mapGet w.Chunks key with
  | some chunk =>
    have hG := GetChunk_hit maxChunks w key.1 key.2 chunk hget
    simp [threadStep, hget, hG]
  | none =>
    by_cases hroom : w.genQueue.length < GenQueueCap
    · have hG := GetChunk_miss maxChunks w key.1 key.2 hget hroom
      simp [threadStep, hget, hG, insertPlaceholder_of_room w key hroom]
    · have hG := GetChunk_waits maxChunks w key.1 key.2 hget (by omega)
      simp [threadStep, hget, hG, insertPlaceholder_of_full w key (by omega)]

theorem schedInv_init (maxChunks n : Nat) (key : Coord) (w : World)
    (habs : mapGet w.Chunks key = none) : SchedInv maxChunks n key w (initSys w n) := by
  have h0 : missCount (initSys w n) = 0 := by
    simp [missCount, initSys, List.countP_replicate, Pc.missed]
  refine ⟨by simp [initSys], ?_, ?_, ?_, ?_⟩
  · rw [h0]; simp [initSys]
  · intro _
    rw [h0]; simp [initSys]
  · intro _
    refine ⟨?_, fun _ => habs⟩
    intro pc hpc
    simp only [initSys] at hpc
    exact Or.inl (List.eq_of_mem_replicate hpc)
  · intro h
    rw [h0] at h
    exact absurd h (by omega)

theorem schedInv_step (maxChunks n : Nat) (key : Coord) (w : World) (s : Sys) (t : Nat)
    (h : SchedInv maxChunks n key w s) :
    SchedInv maxChunks n key w (sysStep maxChunks key s t) := by
  obtain ⟨hlen, hgen, hperm, hzero, hcap⟩ := h
  unfold sysStep
  by_cases hw : s.pcs.any Pc.waiting = true
  · simp only [hw, if_true]
    exact ⟨hlen, hgen, hperm, hzero, hcap⟩
  have hw2 : s.pcs.any Pc.waiting = false := by simpa using hw
  simp only [hw2, Bool.false_eq_true, if_false]
  cases hpc : s.pcs[t]? with
  | none => exact ⟨hlen, hgen, hperm, hzero, hcap⟩
  | some pc =>
    obtain ⟨ht, hpct⟩ := List.getElem?_eq_some.mp hpc
    have hmem : pc ∈ s.pcs := hpct ▸ List.getElem_mem ht
    have hcount : ∀ pc2 : Pc, List.countP Pc.missed (s.pcs.set t pc2) =
        (List.countP Pc.missed s.pcs - if Pc.missed pc = true then 1 else 0) +
          if Pc.missed pc2 = true then 1 else 0 := by
      intro pc2
      rw [List.countP_set Pc.missed s.pcs t pc2 ht, hpct]
    cases pc with
    | atLookup =>
      cases hget : mapGet s.world.Chunks key with
      | some chunk =>
        have hc : missCount { world := s.world, pcs := s.pcs.set t (Pc.atMoveToBack chunk) } =
            missCount s := by
          simp [missCount, hcount, Pc.missed]
        simp only [threadStep, hget]
        refine ⟨by simp [hlen], by rw [hc]; exact hgen, by rw [hc]; exact hperm, ?_,
          by rw [hc]; exact hcap⟩
        intro h0
        rw [hc] at h0
        rw [(hzero h0).2 hw2] at hget
        exact absurd hget (by simp)
      | none =>
        have hc : missCount { world := s.world, pcs := s.pcs.set t Pc.atInsert } =
            missCount s := by
          simp [missCount, hcount, Pc.missed]
        simp only [threadStep, hget]
        refine ⟨by simp [hlen], by rw [hc]; exact hgen, by rw [hc]; exact hperm, ?_,
          by rw [hc]; exact hcap⟩
        intro h0
        rw [hc] at h0
        refine ⟨?_, fun _ => hget⟩
        intro pc2 hpc2
        rcases List.mem_or_eq_of_mem_set hpc2 with h1 | h1
        · exact (hzero h0).1 pc2 h1
        · exact Or.inr (Or.inl h1)
    | atMoveToBack chunk =>
      have hc : missCount (⟨moveToBack s.world key,
          s.pcs.set t (Pc.returnedHit chunk)⟩ : Sys) = missCount s := by
        simp [missCount, hcount, Pc.missed]
      simp only [threadStep]
      refine ⟨by simp [hlen], ?_, ?_, ?_, by rw [hc]; exact hcap⟩
      · rw [hc]; exact hgen
      · intro hroom
        rw [hc]
        exact (moveToBack_perm s.world key).trans (hperm hroom)
      · intro h0
        rw [hc] at h0
        rcases (hzero h0).1 _ hmem with h1 | h1 | h1
        · exact absurd h1 (by simp)
        · exact absurd h1 (by simp)
        · exact absurd h1 (by simp)
    | atInsert =>
      by_cases hch : s.world.genQueue.length < GenQueueCap
      · have hc : missCount (⟨evictOldChunks maxChunks (afterInsert s.world key),
            s.pcs.set t (Pc.returnedMiss
              (mapGet (evictOldChunks maxChunks (afterInsert s.world key)).Chunks key))⟩ :
              Sys) = missCount s + 1 := by
          simp [missCount, hcount, Pc.missed]
        have hle : missCount s + 1 ≤ n := by
          rw [← hc, ← hlen]
          have := @List.countP_le_length Pc Pc.missed (s.pcs.set t (Pc.returnedMiss
            (mapGet (evictOldChunks maxChunks (afterInsert s.world key)).Chunks key)))
          simpa [missCount] using this
        simp only [threadStep, insertPlaceholder_of_room s.world key hch]
        refine ⟨by simp [hlen], ?_, ?_, ?_, ?_⟩
        · rw [hc, List.replicate_succ', evictOldChunks_genQueue]
          simp [afterInsert, hgen]
        · intro hroom
          have hp := hperm hroom
          have hl : s.world.cacheQueue.length = w.cacheQueue.length + missCount s := by
            rw [hp.length_eq]; simp
          have hno : evictOldChunks maxChunks (afterInsert s.world key) =
              afterInsert s.world key :=
            evictOldChunks_of_le _ _ (by simp [afterInsert, hl]; omega)
          rw [hc, List.replicate_succ', hno]
          simp only [afterInsert]
          rw [← List.append_assoc]
          exact List.Perm.append_right [key] hp
        · intro h0
          rw [hc] at h0
          exact absurd h0 (by omega)
        · intro _
          rw [hc]
          have hl : s.world.genQueue.length = w.genQueue.length + missCount s := by
            rw [hgen]; simp
          omega
      · have hc : missCount (⟨storePlaceholder s.world key,
            s.pcs.set t Pc.waitingAtSend⟩ : Sys) = missCount s := by
          simp [missCount, hcount, Pc.missed]
        simp only [threadStep, insertPlaceholder_of_full s.world key (by omega)]
        refine ⟨by simp [hlen], ?_, ?_, ?_, by rw [hc]; exact hcap⟩
        · rw [hc]
          simpa [storePlaceholder] using hgen
        · intro hroom
          rw [hc]
          simpa [storePlaceholder] using hperm hroom
        · intro h0
          rw [hc] at h0
          refine ⟨?_, ?_⟩
          · intro pc2 hpc2
            rcases List.mem_or_eq_of_mem_set hpc2 with h1 | h1
            · exact (hzero h0).1 pc2 h1
            · exact Or.inr (Or.inr h1)
          · intro hnw
            have hin : Pc.waitingAtSend ∈ s.pcs.set t Pc.waitingAtSend :=
              List.mem_iff_getElem?.mpr ⟨t, List.getElem?_set_self ht⟩
            have := List.any_eq_false.mp hnw _ hin
            simp [Pc.waiting] at this
    | waitingAtSend =>
      simp only [threadStep]
      rw [set_eq_self_of_getElem? s.pcs t _ hpc]
      exact ⟨hlen, hgen, hperm, hzero, hcap⟩
    | returnedHit chunk =>
      simp only [threadStep]
      rw [set_eq_self_of_getElem? s.pcs t _ hpc]
      exact ⟨hlen, hgen, hperm, hzero, hcap⟩
    | returnedMiss ret =>
      simp only [threadStep]
      rw [set_eq_self_of_getElem? s.pcs t _ hpc]
      exact ⟨hlen, hgen, hperm, hzero, hcap⟩

theorem schedInv_run (maxChunks n : Nat) (key : Coord) (w : World) (sched : List Nat)
    (s : Sys) (h : SchedInv maxChunks n key w s) :
    SchedInv maxChunks n key w (runSchedule maxChunks key s sched) := by
  induction sched generalizing s with
  | nil => exact h
  | cons t rest ih => exact ih _ (schedInv_step maxChunks n key w s t h)

/-- One whole call of a thread that stands at the lookup and finds the key. -/
theorem sysStep_twice_hit (maxChunks : Nat) (key : Coord) (s : Sys) (t : Nat) (chunk : Chunk)
    (hw : s.pcs.any Pc.waiting = false)
    (hpc : s.pcs[t]? = some Pc.atLookup) (hget : mapGet s.world.Chunks key = some chunk) :
    sysStep maxChunks key (sysStep maxChunks key s t) t =
      { world := moveToBack s.world key, pcs := s.pcs.set t (Pc.returnedHit chunk) } := by
  obtain ⟨ht, -⟩ := List.getElem?_eq_some.mp hpc
  have h1 : sysStep maxChunks key s t =
      { world := s.world, pcs := s.pcs.set t (Pc.atMoveToBack chunk) } := by
    simp [sysStep, hw, hpc, threadStep, hget]
  have hw1 := any_waiting_set s.pcs t (Pc.atMoveToBack chunk) hw rfl
  rw [h1]
  simp [sysStep, hw1, List.getElem?_set_self ht, threadStep, List.set_set]

/-- One whole call of a thread that stands at the lookup and does not find the key, with
room in the channel. -/
theorem sysStep_twice_miss (maxChunks : Nat) (key : Coord) (s : Sys) (t : Nat)
    (hw : s.pcs.any Pc.waiting = false) (hroom : s.world.genQueue.length < GenQueueCap)
    (hpc : s.pcs[t]? = some Pc.atLookup) (hget : mapGet s.world.Chunks key = none) :
    sysStep maxChunks key (sysStep maxChunks key s t) t =
      { world := evictOldChunks maxChunks (afterInsert s.world key),
        pcs := s.pcs.set t (Pc.returnedMiss
          (mapGet (evictOldChunks maxChunks (afterInsert s.world key)).Chunks key)) } := by
  obtain ⟨ht, -⟩ := List.getElem?_eq_some.mp hpc
  have h1 : sysStep maxChunks key s t = { world := s.world, pcs := s.pcs.set t Pc.atInsert } := by
    simp [sysStep, hw, hpc, threadStep, hget]
  have hw1 := any_waiting_set s.pcs t Pc.atInsert hw rfl
  rw [h1]
  simp [sysStep, hw1, List.getElem?_set_self ht, threadStep, List.set_set,
    insertPlaceholder_of_room s.world key hroom]

theorem runSchedule_serial_succ (maxChunks : Nat) (key : Coord) (s : Sys) (m : Nat) :
    runSchedule maxChunks key s (serialSched (m + 1)) =
      sysStep maxChunks key
        (sysStep maxChunks key (runSchedule maxChunks key s (serialSched m)) m) m := by
  simp [runSchedule, serialSched, List.foldl_append]

theorem serial_aux (maxChunks n : Nat) (key : Coord) (w : World)
    (habs : mapGet w.Chunks key = none) (hroom : w.cacheQueue.length + n ≤ maxChunks)
    (hchan : w.genQueue.length < GenQueueCap) :
    ∀ m, m ≤ n →
      (runSchedule maxChunks key (initSys w n) (serialSched m)).pcs.length = n ∧
      (runSchedule maxChunks key (initSys w n) (serialSched m)).pcs.any Pc.waiting = false ∧
      (∀ t, m ≤ t → t < n →
        (runSchedule maxChunks key (initSys w n) (serialSched m)).pcs[t]? = some Pc.atLookup) ∧
      (∀ t, t < m → ∃ pc,
        (runSchedule maxChunks key (initSys w n) (serialSched m)).pcs[t]? = some pc ∧
        Pc.returned pc = true) ∧
      (1 ≤ m → missCount (runSchedule maxChunks key (initSys w n) (serialSched m)) = 1 ∧
        ∃ chunk, mapGet
          (runSchedule maxChunks key (initSys w n) (serialSched m)).world.Chunks key =
            some chunk) ∧
      (m = 0 → missCount (runSchedule maxChunks key (initSys w n) (serialSched m)) = 0 ∧
        (runSchedule maxChunks key (initSys w n) (serialSched m)).world = w) := by
  intro m
  induction m with
  | zero =>
    intro _
    refine ⟨by simp [runSchedule, serialSched, initSys], ?_, ?_, ?_, ?_, ?_⟩
    · simp [runSchedule, serialSched, initSys, Pc.waiting]
    · intro t _ ht
      simp [runSchedule, serialSched, initSys, List.getElem?_replicate, ht]
    · intro t ht
      exact absurd ht (by omega)
    · intro h
      exact absurd h (by omega)
    · intro _
      simp [runSchedule, serialSched, initSys, missCount, List.countP_replicate, Pc.missed]
  | succ m ih =>
    intro hm
    obtain ⟨hlen, hnw, hlook, hret, hone, hzero⟩ := ih (by omega)
    have hpc := hlook m (le_refl m) (by omega)
    have hmlt : m < (runSchedule maxChunks key (initSys w n) (serialSched m)).pcs.length := by
      omega
    have hpcm : (runSchedule maxChunks key (initSys w n) (serialSched m)).pcs[m] =
        Pc.atLookup := by
      obtain ⟨_, h⟩ := List.getElem?_eq_some.mp hpc
      exact h
    have hcount : ∀ pc2 : Pc, List.countP Pc.missed
        ((runSchedule maxChunks key (initSys w n) (serialSched m)).pcs.set m pc2) =
        missCount (runSchedule maxChunks key (initSys w n) (serialSched m)) +
          if Pc.missed pc2 = true then 1 else 0 := by
      intro pc2
      rw [List.countP_set Pc.missed _ m pc2 hmlt, hpcm]
      simp [missCount, Pc.missed]
    have hothers : ∀ (pc2 : Pc) (t : Nat), m + 1 ≤ t → t < n →
        ((runSchedule maxChunks key (initSys w n) (serialSched m)).pcs.set m pc2)[t]? =
          some Pc.atLookup := by
      intro pc2 t h1 h2
      rw [List.getElem?_set_ne (by omega)]
      exact hlook t (by omega) h2
    have hdone : ∀ (pc2 : Pc), Pc.returned pc2 = true → ∀ t, t < m + 1 → ∃ pc,
        ((runSchedule maxChunks key (initSys w n) (serialSched m)).pcs.set m pc2)[t]? = some pc ∧
        Pc.returned pc = true := by
      intro pc2 hpc2 t ht
      by_cases htm : t = m
      · subst htm
        exact ⟨pc2, List.getElem?_set_self hmlt, hpc2⟩
      · rw [List.getElem?_set_ne (fun h => htm h.symm)]
        exact hret t (by omega)
    rw [runSchedule_serial_succ]
    by_cases hm0 : m = 0
    · -- the first call misses
      have hw := (hzero hm0).2
      have hk := (hzero hm0).1
      have hget : mapGet
          (runSchedule maxChunks key (initSys w n) (serialSched m)).world.Chunks key = none := by
        rw [hw]; exact habs
      have hch : (runSchedule maxChunks key (initSys w n) (serialSched m)).world.genQueue.length <
          GenQueueCap := by
        rw [hw]; exact hchan
      rw [sysStep_twice_miss maxChunks key _ m hnw hch hpc hget]
      have hno : evictOldChunks maxChunks (afterInsert
          (runSchedule maxChunks key (initSys w n) (serialSched m)).world key) =
          afterInsert (runSchedule maxChunks key (initSys w n) (serialSched m)).world key :=
        evictOldChunks_of_le _ _ (by rw [hw]; simp [afterInsert]; omega)
      refine ⟨by simp [hlen], ?_, ?_, ?_, ?_, ?_⟩
      · exact any_waiting_set _ m _ hnw rfl
      · exact hothers _
      · exact hdone _ rfl
      · intro _
        refine ⟨?_, placeholder, ?_⟩
        · simp only [missCount]
          rw [hcount, hk]
          simp [Pc.missed]
        · simp only
          rw [hno]
          simp [afterInsert, mapGet_mapSet]
      · intro h
        exact absurd h (by omega)
    · -- every later call hits
      obtain ⟨hk, chunk, hget⟩ := hone (by omega)
      rw [sysStep_twice_hit maxChunks key _ m chunk hnw hpc hget]
      refine ⟨by simp [hlen], ?_, ?_, ?_, ?_, ?_⟩
      · exact any_waiting_set _ m _ hnw rfl
      · exact hothers _
      · exact hdone _ rfl
      · intro _
        refine ⟨?_, chunk, ?_⟩
        · simp only [missCount]
          rw [hcount, hk]
          simp [Pc.missed]
        · simpa [moveToBack] using hget
      · intro h
        exact absurd h (by omega)

/-- When the calls do not overlap, every thread returns and exactly one of them has gone
through the inserting block. -/
theorem serial_missCount (maxChunks n : Nat) (key : Coord) (w : World) (hn : 1 ≤ n)
    (habs : mapGet w.Chunks key = none) (hroom : w.cacheQueue.length + n ≤ maxChunks)
    (hchan : w.genQueue.length < GenQueueCap) :
    allReturned (runSchedule maxChunks key (initSys w n) (serialSched n)) = true ∧
    missCount (runSchedule maxChunks key (initSys w n) (serialSched n)) = 1 := by
  obtain ⟨hlen, -, -, hret, hone, -⟩ :=
    serial_aux maxChunks n key w habs hroom hchan n (le_refl n)
  refine ⟨?_, (hone hn).1⟩
  unfold allReturned
  rw [List.all_eq_true]
  intro pc hpc
  obtain ⟨t, ht⟩ := List.mem_iff_getElem?.mp hpc
  obtain ⟨hlt, -⟩ := List.getElem?_eq_some.mp ht
  obtain ⟨pc2, h1, h2⟩ := hret t (by omega)
  rw [ht] at h1
  cases h1
  exact h2

theorem runFrom_hits (maxChunks : Nat) (cx cy : Int) (n : Nat) :
    ∀ (w : World) (chunk : Chunk), mapGet w.Chunks (cx, cy) = some chunk →
      ∃ w1, runFrom maxChunks w (List.replicate n (Step.getChunk cx cy)) = some w1 ∧
        w1.genQueue = w.genQueue ∧ w1.cacheQueue.Perm w.cacheQueue := by
  induction n with
  | zero =>
    intro w chunk _
    exact ⟨w, by simp [runFrom], rfl, List.Perm.refl _⟩
  | succ n ih =>
    intro w chunk h
    have hG := GetChunk_hit maxChunks w cx cy chunk h
    have hs : step maxChunks w (Step.getChunk cx cy) = some (moveToBack w (cx, cy)) := by
      simp only [step, hG]
    obtain ⟨w1, h0, h1, h2⟩ := ih (moveToBack w (cx, cy)) chunk (by simpa [moveToBack] using h)
    refine ⟨w1, ?_, h1.trans (by simp [moveToBack]), h2.trans (moveToBack_perm w (cx, cy))⟩
    rw [List.replicate_succ, runFrom_cons_of_step maxChunks _ _ _ _ hs]
    exact h0

set_option maxRecDepth 100000 in
/-- C10 fails on the code.  Two threads call `GetChunk(0,0)` on the empty world and run
their critical sections in the order lookup of thread 0, lookup of thread 1, inserting
block of thread 0, inserting block of thread 1.  Both lookups miss, both threads return,
and two copies of `(0,0)` are in the channel and two entries for `(0,0)` in the list. -/
theorem c10_concurrent_miss_double_enqueue :
    mapGet NewWorld.Chunks (0, 0) = none ∧
    allReturned (runSchedule MaxChunks (0, 0) (initSys NewWorld 2) [0, 1, 0, 1]) = true ∧
    (runSchedule MaxChunks (0, 0) (initSys NewWorld 2) [0, 1, 0, 1]).world.genQueue =
      [(0, 0), (0, 0)] ∧
    (runSchedule MaxChunks (0, 0) (initSys NewWorld 2) [0, 1, 0, 1]).world.cacheQueue =
      [(0, 0), (0, 0)] ∧
    (mapKeys (runSchedule MaxChunks (0, 0)
      (initSys NewWorld 2) [0, 1, 0, 1]).world.Chunks).length = 1 := by
  decide

/-- C10 as amended.  `n ≥ 1` threads call `GetChunk(key)` for a coordinate that is no key
of the map, each call being its two critical sections, interleaved in any order `sched`
until every thread has returned.  Then the channel has received `k` copies of `key` and
nothing else, where `k` is the number of threads that went through the inserting block
(those whose own lookup missed), and `1 ≤ k ≤ n`; if the list has room for `n` more entries
(so that nothing is evicted) it has received exactly `k` entries for `key` as well.  When
the `n` calls do not overlap (the schedule `serialSched n`; or, what is the same, `n` calls
of `GetChunk` one after another), and there is this room, every thread returns, exactly
one copy is sent and exactly one entry added. -/
theorem c10_concurrent_miss_enqueue_bounds (maxChunks n : Nat) (key : Coord) (w : World)
    (sched : List Nat) (hn : 1 ≤ n) (habs : mapGet w.Chunks key = none)
    (hdone : allReturned (runSchedule maxChunks key (initSys w n) sched) = true) :
    (runSchedule maxChunks key (initSys w n) sched).world.genQueue =
      w.genQueue ++
        List.replicate (missCount (runSchedule maxChunks key (initSys w n) sched)) key ∧
    1 ≤ missCount (runSchedule maxChunks key (initSys w n) sched) ∧
    missCount (runSchedule maxChunks key (initSys w n) sched) ≤ n ∧
    (w.cacheQueue.length + n ≤ maxChunks →
      ((runSchedule maxChunks key (initSys w n) sched).world.cacheQueue).Perm
        (w.cacheQueue ++
          List.replicate (missCount (runSchedule maxChunks key (initSys w n) sched)) key)) ∧
    (w.cacheQueue.length + n ≤ maxChunks →
      allReturned (runSchedule maxChunks key (initSys w n) (serialSched n)) = true ∧
      missCount (runSchedule maxChunks key (initSys w n) (serialSched n)) = 1 ∧
      (runSchedule maxChunks key (initSys w n) (serialSched n)).world.genQueue =
        w.genQueue ++ [key] ∧
      ((runSchedule maxChunks key (initSys w n) (serialSched n)).world.cacheQueue).Perm
        (w.cacheQueue ++ [key])) ∧
    (w.cacheQueue.length + n ≤ maxChunks →
      ∃ w1, runFrom maxChunks w (List.replicate n (Step.getChunk key.1 key.2)) = some w1 ∧
        w1.genQueue = w.genQueue ++ [key] ∧
        w1.cacheQueue.Perm (w.cacheQueue ++ [key])) := by
  obtain ⟨hlen, hgen, hperm, hzero, hcap⟩ :=
    schedInv_run maxChunks n key w sched (initSys w n) (schedInv_init maxChunks n key w habs)
  have hk1 : 1 ≤ missCount (runSchedule maxChunks key (initSys w n) sched) := by
    by_contra hk
    have h0 : missCount (runSchedule maxChunks key (initSys w n) sched) = 0 := by omega
    have hpos : 0 < (runSchedule maxChunks key (initSys w n) sched).pcs.length := by omega
    have hmem := List.getElem_mem hpos
    have hret : Pc.returned
        ((runSchedule maxChunks key (initSys w n) sched).pcs.get ⟨0, hpos⟩) = true := by
      unfold allReturned at hdone
      exact List.all_eq_true.mp hdone _ hmem
    simp only [List.get_eq_getElem] at hret
    rcases (hzero h0).1 _ hmem with h1 | h1 | h1
    · rw [h1] at hret
      simp [Pc.returned] at hret
    · rw [h1] at hret
      simp [Pc.returned] at hret
    · rw [h1] at hret
      simp [Pc.returned] at hret
  have hchan : w.genQueue.length < GenQueueCap := by
    have := hcap hk1
    omega
  refine ⟨hgen, hk1, ?_, hperm, ?_, ?_⟩
  · have hle := @List.countP_le_length Pc Pc.missed
      (runSchedule maxChunks key (initSys w n) sched).pcs
    rw [hlen] at hle
    exact hle
  · intro hroom
    obtain ⟨hall, hone⟩ := serial_missCount maxChunks n key w hn habs hroom hchan
    obtain ⟨-, hgen2, hperm2, -, -⟩ := schedInv_run maxChunks n key w (serialSched n)
      (initSys w n) (schedInv_init maxChunks n key w habs)
    have hp := hperm2 hroom
    rw [hone] at hgen2 hp
    exact ⟨hall, hone, by simpa using hgen2, by simpa using hp⟩
  · intro hroom
    obtain ⟨m, rfl⟩ : ∃ m, n = m + 1 := ⟨n - 1, by omega⟩
    have hG := GetChunk_miss maxChunks w key.1 key.2 habs hchan
    have hno : evictOldChunks maxChunks (afterInsert w (key.1, key.2)) =
        afterInsert w (key.1, key.2) :=
      evictOldChunks_of_le _ _ (by simp [afterInsert]; omega)
    have hs : step maxChunks w (Step.getChunk key.1 key.2) =
        some (afterInsert w (key.1, key.2)) := by
      simp only [step, hG, hno]
    obtain ⟨w1, h0, h1, h2⟩ := runFrom_hits maxChunks key.1 key.2 m
      (afterInsert w (key.1, key.2)) placeholder
      (by simp [afterInsert, mapGet_mapSet])
    refine ⟨w1, ?_, h1.trans (by simp [afterInsert]), h2.trans (by simp [afterInsert])⟩
    rw [List.replicate_succ, runFrom_cons_of_step maxChunks _ _ _ _ hs]
    exact h0

set_option maxRecDepth 100000 in
/-- Witness of the amended C10 with `MaxChunks = 50`, two threads on the empty world: the
schedule lookup, lookup, insert, insert sends two copies (`k = 2 = n`); the schedule in
which thread 0 finishes before thread 1 starts sends one. -/
theorem c10_concurrent_miss_enqueue_bounds_witness :
    1 ≤ 2 ∧ mapGet NewWorld.Chunks (0, 0) = none ∧
    allReturned (runSchedule MaxChunks (0, 0) (initSys NewWorld 2) [0, 1, 0, 1]) = true ∧
    1 ≤ missCount (runSchedule MaxChunks (0, 0) (initSys NewWorld 2) [0, 1, 0, 1]) ∧
    missCount (runSchedule MaxChunks (0, 0) (initSys NewWorld 2) [0, 1, 0, 1]) ≤ 2 ∧
    missCount (runSchedule MaxChunks (0, 0) (initSys NewWorld 2) [0, 1, 0, 1]) = 2 ∧
    missCount (runSchedule MaxChunks (0, 0) (initSys NewWorld 2) [0, 0, 1, 1]) = 1 ∧
    (runSchedule MaxChunks (0, 0) (initSys NewWorld 2) [0, 0, 1, 1]).world.genQueue =
      [(0, 0)] := by
  have hn : 1 ≤ 2 := by decide
  have habs : mapGet NewWorld.Chunks (0, 0) = none := by decide
  have hdone :
      allReturned (runSchedule MaxChunks (0, 0) (initSys NewWorld 2) [0, 1, 0, 1]) = true := by
    decide
  have h := c10_concurrent_miss_enqueue_bounds MaxChunks 2 (0, 0) NewWorld [0, 1, 0, 1] hn habs hdone
  exact ⟨hn, habs, hdone, h.2.1, h.2.2.1, by decide, by decide, by decide⟩

end ChunkCache
